import Mathlib

/-!
Verification development for the Jester cryptographic toolkit.

The definitions below are a shallow embedding of the Rust sources:
prime-field elements (jester_maths/src/prime.rs) are embedded as their
internal magnitude, a natural number, and every operation repeats the
source computation on magnitudes; Shamir secret sharing
(jester_sharing/src/threshold_sharing/shamir_secret_sharing.rs), the
Beaver multiplication protocols, the joint unbounded OR
(jester_sharing/src/shared_or_function/joint_unbounded_or.rs) and the
Double-Ratchet state machine (jester_double_ratchet/src/lib.rs) are
embedded structurally, with randomness passed in as explicit arguments
and asynchronous rounds collapsed to their data flow.
-/

namespace Jester

/-! ## Prime-field element operations (jester_maths/src/prime.rs)

A field element of the type generated by the prime_fields! macro holds a
BigUint magnitude; we embed an element as that magnitude (a Nat).  The
lazily initialised prime constant stores the parsed prime WITHOUT
reduction, so its magnitude is p itself. -/

/-- The lazily initialised prime constant: the macro parses the prime
string directly into the struct, deliberately without reducing it, so the
stored magnitude is exactly p (see the doc-test asserting
field_prime().as_uint() = 7 for the prime-7 field). -/
def fieldPrimeRaw (p : Nat) : Nat := p

/-- Add impl: sum of magnitudes followed by rem_assign with the prime. -/
def fieldAdd (p a b : Nat) : Nat := (a + b) % p

/-- Sub impl: if self >= rhs, plain subtraction; otherwise the code adds
Sub(prime_constant, rhs) to self.  That inner call compares p >= rhs and
(for rhs <= p, the only case reachable from in-range values) returns
(p - rhs) % p.  Both branches end with rem_assign by p. -/
def fieldSub (p a b : Nat) : Nat :=
  if b ≤ a then (a - b) % p
  else (a + (p - b) % p) % p

/-- Mul impl: product of magnitudes, then rem_assign with the prime. -/
def fieldMul (p a b : Nat) : Nat := (a * b) % p

/-- Div impl: integer quotient of the magnitudes, then rem_assign with
the prime (this is NOT the modular inverse). -/
def fieldDiv (p a b : Nat) : Nat := (a / b) % p

/-- Rem impl: magnitude of self modulo magnitude of rhs; no reduction by
the prime afterwards. -/
def fieldRem (a b : Nat) : Nat := a % b

/-- Zero impl: BigUint::zero, magnitude 0. -/
def fieldZero : Nat := 0

/-- One impl: BigUint::one, magnitude 1. -/
def fieldOne : Nat := 1

/-- From<BigUint> impl and from_u64: reduce the magnitude modulo p. -/
def fieldFromUint (p n : Nat) : Nat := n % p

/-- Num::from_str_radix impl on an already-parsed magnitude: the code
computes modpow(1, p), i.e. reduction modulo p. -/
def fieldFromStrRadix (p n : Nat) : Nat := n % p

/-- FromPrimitive::from_i64: for n < 0 the code converts |n| to a field
element (reducing mod p) and subtracts it from the prime constant with
the field Sub; for n >= 0 it reduces n mod p. -/
def fieldFromInt (p : Nat) (z : Int) : Nat :=
  if z < 0 then fieldSub p (fieldPrimeRaw p) (z.natAbs % p)
  else z.toNat % p

/-- Iterator Sum impl: fold the field addition starting from zero. -/
def fieldSum (p : Nat) (l : List Nat) : Nat := l.foldl (fieldAdd p) 0

/-- Iterator Product impl: fold the field multiplication starting from one. -/
def fieldProd (p : Nat) (l : List Nat) : Nat := l.foldl (fieldMul p) 1

/-- Structural helper for the extended Euclidean algorithm: the first
argument is recursion fuel bounding the second Euclid argument, so the
recursion is structural (and kernel-computable); fieldEgcd instantiates
the fuel with b itself, which never runs out because the Euclid argument
strictly decreases.  The recurrence proved in fieldEgcd_eq is the
faithful rendering of the source. -/
def fieldEgcdAux (p : Nat) : Nat → Nat → Nat → Nat × Nat × Nat
  | _, a, 0 => (a, fieldOne, fieldZero)
  | 0, a, _ + 1 => (a, fieldOne, fieldZero)
  | fuel + 1, a, b + 1 =>
      let r := fieldEgcdAux p fuel (b + 1) (fieldRem a (b + 1))
      let delta := fieldMul p (fieldDiv p a (b + 1)) r.2.2
      (r.1, r.2.2, fieldSub p r.2.1 delta)

/-- PrimeField::extended_greatest_common_divisor: the extended Euclidean
algorithm carried out with the field operations (rem, div, mul, sub). -/
def fieldEgcd (p a b : Nat) : Nat × Nat × Nat := fieldEgcdAux p b a b

theorem fieldEgcdAux_zero {p : Nat} (fuel a : Nat) :
    fieldEgcdAux p fuel a 0 = (a, fieldOne, fieldZero) := by
  cases fuel <;> rfl

theorem fieldEgcdAux_fuel {p : Nat} : ∀ fuel fuel2 a b : Nat, b ≤ fuel → b ≤ fuel2 →
    fieldEgcdAux p fuel a b = fieldEgcdAux p fuel2 a b := by
  intro fuel
  induction fuel with
  | zero =>
      intro fuel2 a b hb _
      obtain rfl : b = 0 := Nat.le_zero.mp hb
      rw [fieldEgcdAux_zero, fieldEgcdAux_zero]
  | succ fuel ih =>
      intro fuel2 a b hb hb2
      cases b with
      | zero => rw [fieldEgcdAux_zero, fieldEgcdAux_zero]
      | succ b =>
          cases fuel2 with
          | zero => omega
          | succ fuel2 =>
              have hmod : fieldRem a (b + 1) ≤ b := by
                have hm : a % (b + 1) < b + 1 := Nat.mod_lt _ (Nat.succ_pos b)
                simp only [fieldRem]
                omega
              have hrec : fieldEgcdAux p fuel (b + 1) (fieldRem a (b + 1)) =
                  fieldEgcdAux p fuel2 (b + 1) (fieldRem a (b + 1)) :=
                ih fuel2 (b + 1) (fieldRem a (b + 1)) (by omega) (by omega)
              simp only [fieldEgcdAux, hrec]

/-- The defining recurrence of extended_greatest_common_divisor, exactly
as in the source: egcd(a, 0) = (a, one, zero), and otherwise
egcd(a, b) = (d, t, s - (a div b) * t) where (d, s, t) = egcd(b, a rem b),
all arithmetic performed with the field operations. -/
theorem fieldEgcd_eq (p a b : Nat) : fieldEgcd p a b =
    if b = 0 then (a, fieldOne, fieldZero)
    else
      let r := fieldEgcd p b (fieldRem a b)
      let delta := fieldMul p (fieldDiv p a b) r.2.2
      (r.1, r.2.2, fieldSub p r.2.1 delta) := by
  cases b with
  | zero => rw [fieldEgcd, fieldEgcdAux_zero, if_pos rfl]
  | succ b =>
      rw [if_neg (Nat.succ_ne_zero b)]
      have hmod : fieldRem a (b + 1) ≤ b := by
        have hm : a % (b + 1) < b + 1 := Nat.mod_lt _ (Nat.succ_pos b)
        simp only [fieldRem]
        omega
      have hrec : fieldEgcdAux p b (b + 1) (fieldRem a (b + 1)) =
          fieldEgcd p (b + 1) (fieldRem a (b + 1)) := by
        rw [fieldEgcd]
        exact fieldEgcdAux_fuel b (fieldRem a (b + 1)) (b + 1) (fieldRem a (b + 1))
          hmod (le_refl _)
      show fieldEgcdAux p (b + 1) a (b + 1) = _
      simp only [fieldEgcdAux, hrec]

/-- PrimeField::inverse: the third component of the extended gcd of the
prime constant (raw magnitude p) and the element. -/
def fieldInverse (p a : Nat) : Nat := (fieldEgcd p (fieldPrimeRaw p) a).2.2

/-! ### Bridging the magnitude-level operations to the field ZMod p -/

theorem castEq_of_lt {p x y : Nat} (hx : x < p) (hy : y < p)
    (h : (x : ZMod p) = (y : ZMod p)) : x = y := by
  have hv := congrArg ZMod.val h
  rwa [ZMod.val_cast_of_lt hx, ZMod.val_cast_of_lt hy] at hv

theorem fieldAdd_cast {p : Nat} (a b : Nat) :
    ((fieldAdd p a b : Nat) : ZMod p) = (a : ZMod p) + (b : ZMod p) := by
  simp [fieldAdd, ZMod.natCast_mod]

theorem fieldMul_cast {p : Nat} (a b : Nat) :
    ((fieldMul p a b : Nat) : ZMod p) = (a : ZMod p) * (b : ZMod p) := by
  simp [fieldMul, ZMod.natCast_mod]

theorem fieldSub_cast {p : Nat} (a : Nat) {b : Nat} (hb : b ≤ p) :
    ((fieldSub p a b : Nat) : ZMod p) = (a : ZMod p) - (b : ZMod p) := by
  unfold fieldSub
  split
  · rename_i hba
    rw [ZMod.natCast_mod, Nat.cast_sub hba]
  · rw [ZMod.natCast_mod, Nat.cast_add, ZMod.natCast_mod, Nat.cast_sub hb,
      ZMod.natCast_self]
    ring

theorem fieldAdd_lt {p : Nat} (hp : 0 < p) (a b : Nat) : fieldAdd p a b < p :=
  Nat.mod_lt _ hp

theorem fieldMul_lt {p : Nat} (hp : 0 < p) (a b : Nat) : fieldMul p a b < p :=
  Nat.mod_lt _ hp

theorem fieldSub_lt {p : Nat} (hp : 0 < p) (a b : Nat) : fieldSub p a b < p := by
  unfold fieldSub
  split <;> exact Nat.mod_lt _ hp

theorem fieldFromInt_lt {p : Nat} (hp : 0 < p) (z : Int) : fieldFromInt p z < p := by
  unfold fieldFromInt
  split
  · exact fieldSub_lt hp _ _
  · exact Nat.mod_lt _ hp

theorem fieldFromInt_cast {p : Nat} (hp : 0 < p) (z : Int) :
    ((fieldFromInt p z : Nat) : ZMod p) = (z : ZMod p) := by
  unfold fieldFromInt fieldPrimeRaw
  split
  · rename_i hz
    rw [fieldSub_cast _ (le_of_lt (Nat.mod_lt _ hp)), ZMod.natCast_self,
      ZMod.natCast_mod]
    have habs : ((z.natAbs : Int) : ZMod p) = ((-z : Int) : ZMod p) := by
      rw [Int.ofNat_natAbs_of_nonpos (le_of_lt hz)]
    rw [← Int.cast_natCast, habs, Int.cast_neg]
    ring
  · rename_i hz
    rw [ZMod.natCast_mod, ← Int.cast_natCast, Int.toNat_of_nonneg (not_lt.mp hz)]

theorem foldl_fieldAdd_cast {p : Nat} (l : List Nat) (a : Nat) :
    ((l.foldl (fieldAdd p) a : Nat) : ZMod p) =
      (a : ZMod p) + (l.map (Nat.cast : Nat → ZMod p)).sum := by
  induction l generalizing a with
  | nil => simp
  | cons x xs ih =>
      rw [List.foldl_cons, ih, fieldAdd_cast, List.map_cons, List.sum_cons]
      ring

theorem foldl_fieldMul_cast {p : Nat} (l : List Nat) (a : Nat) :
    ((l.foldl (fieldMul p) a : Nat) : ZMod p) =
      (a : ZMod p) * (l.map (Nat.cast : Nat → ZMod p)).prod := by
  induction l generalizing a with
  | nil => simp
  | cons x xs ih =>
      rw [List.foldl_cons, ih, fieldMul_cast, List.map_cons, List.prod_cons]
      ring

theorem fieldSum_cast {p : Nat} (l : List Nat) :
    ((fieldSum p l : Nat) : ZMod p) = (l.map (Nat.cast : Nat → ZMod p)).sum := by
  unfold fieldSum
  rw [foldl_fieldAdd_cast]
  simp

theorem fieldProd_cast {p : Nat} (l : List Nat) :
    ((fieldProd p l : Nat) : ZMod p) = (l.map (Nat.cast : Nat → ZMod p)).prod := by
  unfold fieldProd
  rw [foldl_fieldMul_cast]
  simp

theorem foldl_fieldAdd_lt {p : Nat} (l : List Nat) {a : Nat} (ha : a < p) :
    l.foldl (fieldAdd p) a < p := by
  induction l generalizing a with
  | nil => exact ha
  | cons x xs ih => exact ih (fieldAdd_lt (lt_of_le_of_lt (Nat.zero_le a) ha) a x)

theorem foldl_fieldMul_lt {p : Nat} (l : List Nat) {a : Nat} (ha : a < p) :
    l.foldl (fieldMul p) a < p := by
  induction l generalizing a with
  | nil => exact ha
  | cons x xs ih => exact ih (fieldMul_lt (lt_of_le_of_lt (Nat.zero_le a) ha) a x)

theorem fieldSum_lt {p : Nat} (hp : 0 < p) (l : List Nat) : fieldSum p l < p :=
  foldl_fieldAdd_lt l hp

theorem fieldProd_lt {p : Nat} (hp : 1 < p) (l : List Nat) : fieldProd p l < p :=
  foldl_fieldMul_lt l hp

/-! ### Correctness of the in-field extended Euclidean algorithm -/

theorem fieldEgcd_fst {p : Nat} : ∀ a b : Nat, (fieldEgcd p a b).1 = Nat.gcd b a := by
  intro a b
  induction b using Nat.strong_induction_on generalizing a with
  | _ b ih =>
      rw [fieldEgcd_eq]
      by_cases hb : b = 0
      · subst hb
        simp
      · rw [if_neg hb]
        have hlt : fieldRem a b < b := Nat.mod_lt _ (Nat.pos_of_ne_zero hb)
        dsimp only
        rw [ih _ hlt]
        simp only [fieldRem]
        exact (Nat.gcd_rec b a).symm

theorem fieldEgcd_bezout {p : Nat} (hp : 0 < p) : ∀ a b : Nat,
    ((fieldEgcd p a b).2.1 * a + (fieldEgcd p a b).2.2 * b : ZMod p) =
      ((fieldEgcd p a b).1 : ZMod p) := by
  intro a b
  induction b using Nat.strong_induction_on generalizing a with
  | _ b ih =>
      rw [fieldEgcd_eq]
      by_cases hb : b = 0
      · subst hb
        simp [fieldOne, fieldZero]
      · rw [if_neg hb]
        have hmlt : fieldRem a b < b := Nat.mod_lt _ (Nat.pos_of_ne_zero hb)
        have ih := ih _ hmlt b
        dsimp only
        have hlt : fieldMul p (fieldDiv p a b) (fieldEgcd p b (fieldRem a b)).2.2 < p :=
          fieldMul_lt hp _ _
        rw [fieldSub_cast _ (le_of_lt hlt), fieldMul_cast]
        have hdiv : ((fieldDiv p a b : Nat) : ZMod p) = ((a / b : Nat) : ZMod p) := by
          simp [fieldDiv, ZMod.natCast_mod]
        -- decompose a = b * (a / b) + a % b and use the inductive Bezout identity
        have ha : (a : ZMod p) =
            (b : ZMod p) * ((a / b : Nat) : ZMod p) + ((fieldRem a b : Nat) : ZMod p) := by
          have hdm : b * (a / b) + a % b = a := Nat.div_add_mod a b
          calc (a : ZMod p) = ((b * (a / b) + a % b : Nat) : ZMod p) := by rw [hdm]
          _ = _ := by
            push_cast
            simp [fieldRem]
        rw [hdiv, ha]
        linear_combination ih

theorem fieldInverse_lt {p : Nat} (hp : 0 < p) (a : Nat) : fieldInverse p a < p := by
  unfold fieldInverse fieldPrimeRaw
  rw [fieldEgcd_eq]
  split
  · simpa [fieldZero] using hp
  · exact fieldSub_lt hp _ _

theorem fieldInverse_cast {p : Nat} [Fact p.Prime] {a : Nat} (ha : a < p) :
    ((fieldInverse p a : Nat) : ZMod p) = (a : ZMod p)⁻¹ := by
  have hp : p.Prime := Fact.out
  by_cases h0 : a = 0
  · subst h0
    have : fieldInverse p 0 = 0 := by
      unfold fieldInverse fieldPrimeRaw
      rw [fieldEgcd_eq]
      simp [fieldZero]
    rw [this]
    simp
  · have hb := fieldEgcd_bezout (p := p) hp.pos p a
    have hg := fieldEgcd_fst (p := p) p a
    -- gcd a p = 1 because 0 < a < p and p is prime
    have hcop : Nat.gcd a p = 1 := by
      rw [Nat.gcd_comm]
      refine (Nat.Prime.coprime_iff_not_dvd hp).mpr ?_
      intro hdvd
      exact absurd (Nat.le_of_dvd (Nat.pos_of_ne_zero h0) hdvd) (not_le.mpr ha)
    rw [hg, hcop] at hb
    rw [ZMod.natCast_self, mul_zero, zero_add] at hb
    push_cast at hb
    exact eq_inv_of_mul_eq_one_left hb

theorem fieldMul_inverse {p : Nat} (hp : p.Prime) {a : Nat} (ha0 : a ≠ 0)
    (ha : a < p) : fieldMul p a (fieldInverse p a) = 1 := by
  haveI : Fact p.Prime := ⟨hp⟩
  refine castEq_of_lt (fieldMul_lt hp.pos _ _) hp.one_lt ?_
  rw [fieldMul_cast, fieldInverse_cast ha]
  have hne : (a : ZMod p) ≠ 0 := by
    intro h
    rw [ZMod.natCast_zmod_eq_zero_iff_dvd] at h
    exact absurd (Nat.le_of_dvd (Nat.pos_of_ne_zero ha0) h) (not_le.mpr ha)
  rw [mul_inv_cancel₀ hne, Nat.cast_one]

/-! ## Shamir secret sharing
(jester_sharing/src/threshold_sharing/shamir_secret_sharing.rs)

A share is a pair (evaluation point, field-element magnitude).  The rng
draws of generate_random_member are passed in as the explicit coefficient
list rs (each drawn value lies below p). -/

/-- The polynomial evaluation inside generate_shares: the drawn
coefficients are paired with the exponents 1..threshold-1 and folded as
akk + coeff * (x^exponent reduced into the field), starting from the
secret (the constant term). -/
def shareValue (p secret threshold : Nat) (rs : List Nat) (x : Nat) : Nat :=
  ((List.range' 1 (threshold - 1)).zip rs).foldl
    (fun akk iv => fieldAdd p akk (fieldMul p iv.2 (x ^ iv.1 % p))) secret

/-- ThresholdSecretSharingScheme::generate_shares.  The source first runs
assert!(threshold > 1) — a panic for threshold <= 1, embedded as none —
and then maps every evaluation point x in 1..=count to the pair
(x, shareValue x). -/
def generateShares (p secret count threshold : Nat) (rs : List Nat) :
    Option (List (Nat × Nat)) :=
  if threshold ≤ 1 then none
  else some ((List.range' 1 count).map fun x => (x, shareValue p secret threshold rs x))

/-- ThresholdSecretSharingScheme::reconstruct_secret: Lagrange
interpolation at zero.  The outer sum ranges over the first threshold
shares; the inner product ranges over ALL given shares whose evaluation
point differs, multiplying from_isize(-j) with the field inverse of
from_isize(i - j). -/
def reconstructSecret (p : Nat) (shares : List (Nat × Nat)) (threshold : Nat) : Nat :=
  fieldSum p ((shares.take threshold).map fun s =>
    fieldMul p s.2 (fieldProd p ((shares.filter fun sj => s.1 ≠ sj.1).map fun sj =>
      fieldMul p (fieldFromInt p (-(sj.1 : Int)))
        (fieldInverse p (fieldFromInt p ((s.1 : Int) - (sj.1 : Int)))))))

/-- Claim C4: in every generated prime field, addition and multiplication
are commutative, subtracting an addend undoes the addition, and every
nonzero element multiplied with its extended-Euclid inverse gives one. -/
theorem claim_C4 (p : Nat) (hp : p.Prime) (a b : Nat) (ha : a < p) (hb : b < p) :
    fieldAdd p a b = fieldAdd p b a ∧
    fieldMul p a b = fieldMul p b a ∧
    fieldSub p (fieldAdd p a b) b = a ∧
    (a ≠ 0 → fieldMul p a (fieldInverse p a) = 1) := by
  refine ⟨by simp [fieldAdd, Nat.add_comm], by simp [fieldMul, Nat.mul_comm], ?_,
    fun h0 => fieldMul_inverse hp h0 ha⟩
  refine castEq_of_lt (fieldSub_lt hp.pos _ _) ha ?_
  rw [fieldSub_cast _ (le_of_lt hb), fieldAdd_cast]
  ring

/-- Witness for claim C4 in the prime-7 field. -/
theorem claim_C4_witness :
    fieldAdd 7 3 5 = fieldAdd 7 5 3 ∧
    fieldMul 7 3 5 = fieldMul 7 5 3 ∧
    fieldSub 7 (fieldAdd 7 3 5) 5 = 3 ∧
    (3 ≠ 0 → fieldMul 7 3 (fieldInverse 7 3) = 1) :=
  claim_C4 7 (by norm_num) 3 5 (by decide) (by decide)

/-- Claim C8 (counterexample): the lazily initialised prime constant
backing field_prime holds the magnitude p itself, which is not below p;
shown in the prime-7 field. -/
theorem claim_C8_counterexample : fieldPrimeRaw 7 = 7 ∧ ¬ fieldPrimeRaw 7 < 7 := by
  decide

/-- Claim C8 (amended): every value produced by zero, one, from_uint,
from_str_radix, from_signed, the arithmetic operations, inverse, sum and
product holds a magnitude in [0, p); field_prime is the exception and
holds exactly p. -/
theorem claim_C8 (p : Nat) (hp : p.Prime) :
    fieldZero < p ∧ fieldOne < p ∧
    (∀ n, fieldFromUint p n < p) ∧
    (∀ n, fieldFromStrRadix p n < p) ∧
    (∀ z, fieldFromInt p z < p) ∧
    (∀ a b, fieldAdd p a b < p) ∧
    (∀ a b, fieldSub p a b < p) ∧
    (∀ a b, fieldMul p a b < p) ∧
    (∀ a b, fieldDiv p a b < p) ∧
    (∀ a b, b ≠ 0 → b ≤ p → fieldRem a b < p) ∧
    (∀ a, fieldInverse p a < p) ∧
    (∀ l, fieldSum p l < p) ∧
    (∀ l, fieldProd p l < p) ∧
    fieldPrimeRaw p = p := by
  have h0 : 0 < p := hp.pos
  refine ⟨h0, hp.one_lt, fun n => Nat.mod_lt _ h0, fun n => Nat.mod_lt _ h0,
    fun z => fieldFromInt_lt h0 z, fun a b => fieldAdd_lt h0 a b,
    fun a b => fieldSub_lt h0 a b, fun a b => fieldMul_lt h0 a b,
    fun a b => Nat.mod_lt _ h0, fun a b hb hbp => ?_,
    fun a => fieldInverse_lt h0 a, fun l => fieldSum_lt h0 l,
    fun l => fieldProd_lt hp.one_lt l, rfl⟩
  exact lt_of_lt_of_le (Nat.mod_lt a (Nat.pos_of_ne_zero hb)) hbp

/-- Witness for the amended claim C8 in the prime-7 field. -/
theorem claim_C8_witness :
    fieldFromUint 7 100 < 7 ∧ fieldFromInt 7 (-9) < 7 ∧ fieldAdd 7 6 6 < 7 ∧
    fieldInverse 7 3 < 7 ∧ fieldSum 7 [1, 5, 6] < 7 ∧ fieldPrimeRaw 7 = 7 :=
  ⟨(claim_C8 7 (by norm_num)).2.2.1 100,
    (claim_C8 7 (by norm_num)).2.2.2.2.1 (-9),
    (claim_C8 7 (by norm_num)).2.2.2.2.2.1 6 6,
    (claim_C8 7 (by norm_num)).2.2.2.2.2.2.2.2.2.2.1 3,
    (claim_C8 7 (by norm_num)).2.2.2.2.2.2.2.2.2.2.2.1 [1, 5, 6],
    (claim_C8 7 (by norm_num)).2.2.2.2.2.2.2.2.2.2.2.2.2⟩

/-- Claim C6 (counterexample): generate_shares performs no count-versus-
threshold check — with count 2 below threshold 3 it still returns a
2-element share vector, and no InvalidThreshold failure exists. -/
theorem claim_C6_counterexample :
    generateShares 7 5 2 3 [1, 2] = some [(1, 1), (2, 1)] := by
  decide

/-- Claim C6 (amended): generate_shares panics on the assertion
threshold > 1 (embedded as returning none) exactly when threshold <= 1;
for any larger threshold it returns a vector of count shares even when
count is below the threshold. -/
theorem claim_C6 (p secret count threshold : Nat) (rs : List Nat) :
    (threshold ≤ 1 → generateShares p secret count threshold rs = none) ∧
    (1 < threshold → ∃ shares, generateShares p secret count threshold rs = some shares ∧
      shares.length = count) := by
  constructor
  · intro h
    simp [generateShares, h]
  · intro h
    refine ⟨(List.range' 1 count).map fun x => (x, shareValue p secret threshold rs x),
      ?_, ?_⟩
    · simp [generateShares, Nat.not_le.mpr h]
    · simp

/-- Witness for the amended claim C6. -/
theorem claim_C6_witness :
    (generateShares 7 5 2 1 [1, 2] = none) ∧
    (∃ shares, generateShares 7 5 2 3 [1, 2] = some shares ∧ shares.length = 2) :=
  ⟨(claim_C6 7 5 2 1 [1, 2]).1 (by decide), (claim_C6 7 5 2 3 [1, 2]).2 (by decide)⟩

/-! ### Lagrange interpolation at zero for reconstruct_secret -/

theorem lagrangeTerm_cast {p : Nat} [Fact p.Prime] (x j : Nat) :
    ((fieldMul p (fieldFromInt p (-(j : Int)))
        (fieldInverse p (fieldFromInt p ((x : Int) - (j : Int)))) : Nat) : ZMod p) =
      (Lagrange.basisDivisor (x : ZMod p) (j : ZMod p)).eval 0 := by
  have hp : (0 : Nat) < p := (Fact.out : p.Prime).pos
  rw [fieldMul_cast, fieldFromInt_cast hp, fieldInverse_cast (fieldFromInt_lt hp _),
    fieldFromInt_cast hp]
  simp only [Lagrange.basisDivisor, Polynomial.eval_mul, Polynomial.eval_C,
    Polynomial.eval_sub, Polynomial.eval_X]
  push_cast
  ring

/-- The magnitude-level reconstruct_secret of shares (x, f x) over a list
of pairwise distinct points below p computes, in the field, the value at
zero of any polynomial of degree below the share count that matches the
share values at the points. -/
theorem recon_eval {p : Nat} [Fact p.Prime] (xs : List Nat) (f : Nat → Nat)
    (hnd : xs.Nodup) (hlt : ∀ x ∈ xs, x < p)
    (Q : Polynomial (ZMod p)) (hdeg : Q.degree < xs.length)
    (hval : ∀ x ∈ xs, ((f x : Nat) : ZMod p) = Q.eval (x : ZMod p)) :
    ((reconstructSecret p (xs.map fun x => (x, f x)) xs.length : Nat) : ZMod p) =
      Q.eval 0 := by
  classical
  let F := ZMod p
  let v : Nat → F := Nat.cast
  let s : Finset Nat := xs.toFinset
  have hinj : Set.InjOn v s := by
    intro a ha b hb hab
    exact castEq_of_lt (hlt a (List.mem_toFinset.mp ha)) (hlt b (List.mem_toFinset.mp hb)) hab
  have hcard : s.card = xs.length := List.toFinset_card_of_nodup hnd
  -- the inner product over the filtered share list is the basis polynomial at 0
  have hterm : ∀ x ∈ xs,
      ((fieldMul p (f x) (fieldProd p
          (((xs.map fun y => (y, f y)).filter fun sj => x ≠ sj.1).map fun sj =>
            fieldMul p (fieldFromInt p (-(sj.1 : Int)))
              (fieldInverse p (fieldFromInt p ((x : Int) - (sj.1 : Int)))) ) ) : Nat) : F) =
        Q.eval (v x) * (Lagrange.basis s v x).eval 0 := by
    intro x hx
    rw [fieldMul_cast, fieldProd_cast, hval x hx]
    congr 1
    -- commute the filter with the share map, then pass to the Finset product
    have hfil : ((xs.map fun y => (y, f y)).filter fun sj => x ≠ sj.1) =
        (xs.filter fun y => x ≠ y).map fun y => (y, f y) := by
      rw [List.filter_map]
      rfl
    rw [hfil, List.map_map, List.map_map]
    refine Eq.trans (congrArg List.prod
      (List.map_congr_left fun j hj => lagrangeTerm_cast (p := p) x j)) ?_
    have hnf : (xs.filter fun y => x ≠ y).Nodup := hnd.filter _
    rw [← List.prod_toFinset _ hnf]
    have hfin : (xs.filter fun y => x ≠ y).toFinset = s.erase x := by
      ext a
      simp [s, List.mem_filter, Finset.mem_erase, and_comm, ne_comm]
    rw [hfin]
    simp only [Lagrange.basis, Polynomial.eval_prod]
  -- pass the outer sum to the Finset world
  have hlen : ((xs.map fun x => (x, f x)).take xs.length) = xs.map fun x => (x, f x) := by
    rw [← List.length_map xs (fun x => (x, f x)), List.take_length]
  have hQ : Q = Lagrange.interpolate s v fun i => Q.eval (v i) :=
    Lagrange.eq_interpolate hinj (by rw [hcard]; exact hdeg)
  calc ((reconstructSecret p (xs.map fun x => (x, f x)) xs.length : Nat) : F)
      = (xs.map fun x => Q.eval (v x) * (Lagrange.basis s v x).eval 0).sum := by
        unfold reconstructSecret
        rw [hlen, fieldSum_cast, List.map_map, List.map_map]
        exact congrArg List.sum (List.map_congr_left fun x hx => hterm x hx)
    _ = ∑ x ∈ s, Q.eval (v x) * (Lagrange.basis s v x).eval 0 :=
        (List.sum_toFinset _ hnd).symm
    _ = Q.eval 0 := by
        conv_rhs => rw [hQ]
        rw [Lagrange.interpolate_apply, Polynomial.eval_finset_sum]
        refine Finset.sum_congr rfl fun i hi => ?_
        rw [Polynomial.eval_mul, Polynomial.eval_C]

/-- The field polynomial carried by generate_shares: the secret as
constant term plus the drawn coefficients on the monomials X^1..X^(t-1). -/
noncomputable def sharePoly (p secret : Nat) (rs : List Nat) : Polynomial (ZMod p) :=
  Polynomial.C (secret : ZMod p) +
    (((List.range' 1 rs.length).zip rs).map fun iv =>
      Polynomial.C (iv.2 : ZMod p) * Polynomial.X ^ iv.1).sum

theorem polyListSum_eval {p : Nat} (l : List (Polynomial (ZMod p))) (x : ZMod p) :
    (l.sum).eval x = (l.map fun q => q.eval x).sum := by
  induction l with
  | nil => simp
  | cons q qs ih => simp [ih]

theorem foldl_shareStep_cast {p : Nat} (x : Nat) (l : List (Nat × Nat)) (a : Nat) :
    ((l.foldl (fun akk iv => fieldAdd p akk (fieldMul p iv.2 (x ^ iv.1 % p))) a : Nat) :
        ZMod p) =
      (a : ZMod p) + (l.map fun iv => (iv.2 : ZMod p) * (x : ZMod p) ^ iv.1).sum := by
  induction l generalizing a with
  | nil => simp
  | cons iv l ih =>
      rw [List.foldl_cons, ih, List.map_cons, List.sum_cons, fieldAdd_cast, fieldMul_cast,
        ZMod.natCast_mod, Nat.cast_pow]
      ring

theorem shareValue_cast {p : Nat} (secret threshold : Nat) {rs : List Nat}
    (hlen : rs.length = threshold - 1) (x : Nat) :
    ((shareValue p secret threshold rs x : Nat) : ZMod p) =
      (sharePoly p secret rs).eval (x : ZMod p) := by
  unfold shareValue sharePoly
  rw [hlen, foldl_shareStep_cast, Polynomial.eval_add, Polynomial.eval_C,
    polyListSum_eval, List.map_map]
  congr 1
  refine congrArg List.sum (List.map_congr_left fun iv hiv => ?_)
  simp

theorem sharePoly_degree_lt {p : Nat} (secret : Nat) (rs : List Nat) :
    (sharePoly p secret rs).degree < ((rs.length + 1 : Nat) : WithBot Nat) := by
  unfold sharePoly
  have h1 : (Polynomial.C (secret : ZMod p)).degree < ((rs.length + 1 : Nat) : WithBot Nat) := by
    refine lt_of_le_of_lt Polynomial.degree_C_le ?_
    exact_mod_cast Nat.succ_pos rs.length
  have h2 : ((((List.range' 1 rs.length).zip rs).map fun iv : Nat × Nat =>
      Polynomial.C (iv.2 : ZMod p) * Polynomial.X ^ iv.1).sum).degree <
      ((rs.length + 1 : Nat) : WithBot Nat) := by
    refine lt_of_le_of_lt (Polynomial.degree_list_sum_le _) ?_
    have hmax : ((((List.range' 1 rs.length).zip rs).map fun iv : Nat × Nat =>
        Polynomial.C (iv.2 : ZMod p) * Polynomial.X ^ iv.1).map
          Polynomial.natDegree).maximum ≤ ((rs.length : Nat) : WithBot Nat) := by
      refine List.maximum_le_of_forall_le fun d hd => ?_
      rw [List.map_map, List.mem_map] at hd
      obtain ⟨iv, hiv, hivd⟩ := hd
      rw [← hivd]
      simp only [Function.comp_apply]
      have hi : iv.1 ∈ List.range' 1 rs.length := (List.of_mem_zip hiv).1
      have hile : iv.1 ≤ rs.length := by
        have := List.mem_range'_1.mp hi
        omega
      have hdeg : Polynomial.natDegree (Polynomial.C (iv.2 : ZMod p) *
          Polynomial.X ^ iv.1) ≤ iv.1 := Polynomial.natDegree_C_mul_X_pow_le _ _
      exact Nat.cast_le.mpr (le_trans hdeg hile)
    refine lt_of_le_of_lt hmax ?_
    exact Nat.cast_lt.mpr (Nat.lt_succ_self rs.length)
  exact lt_of_le_of_lt (Polynomial.degree_add_le _ _) (max_lt h1 h2)

theorem sharePoly_eval_zero {p : Nat} (secret : Nat) (rs : List Nat) :
    (sharePoly p secret rs).eval 0 = (secret : ZMod p) := by
  unfold sharePoly
  rw [Polynomial.eval_add, Polynomial.eval_C, polyListSum_eval]
  have hz : ∀ q ∈ (((List.range' 1 rs.length).zip rs).map fun iv =>
      Polynomial.C (iv.2 : ZMod p) * Polynomial.X ^ iv.1).map fun q => q.eval 0,
      q = 0 := by
    intro q hq
    rw [List.map_map, List.mem_map] at hq
    obtain ⟨iv, hiv, rfl⟩ := hq
    have hi : iv.1 ∈ List.range' 1 rs.length := (List.of_mem_zip hiv).1
    have h1 : 1 ≤ iv.1 := (List.mem_range'_1.mp hi).1
    simp [Function.comp, zero_pow (by omega : iv.1 ≠ 0)]
  rw [List.sum_eq_zero hz, add_zero]

/-- Claim C1 (counterexample): in the prime-7 field, 8 shares of secret 1
with threshold 2 are generated, but reconstructing from the two shares at
the evaluation points 1 and 8 — which collide modulo 7 — yields 0, not
the secret 1. -/
theorem claim_C1_counterexample :
    generateShares 7 1 8 2 [0] =
      some [(1, 1), (2, 1), (3, 1), (4, 1), (5, 1), (6, 1), (7, 1), (8, 1)] ∧
    reconstructSecret 7 [(1, 1), (8, 1)] 2 ≠ 1 := by
  decide

/-- Claim C1 (amended): the Shamir round trip holds once the share count
stays below the field prime, so that the evaluation points are distinct
field elements: for t > 1, n < p, any t of the n generated shares
reconstruct the secret. -/
theorem claim_C1 (p secret n t : Nat) (rs : List Nat) (hp : p.Prime)
    (ht : 1 < t) (hnp : n < p) (hsec : secret < p) (hlen : rs.length = t - 1)
    (shares chosen : List (Nat × Nat))
    (hgen : generateShares p secret n t rs = some shares)
    (hsub : ∀ s ∈ chosen, s ∈ shares)
    (hchlen : chosen.length = t)
    (hnd : (chosen.map Prod.fst).Nodup) :
    reconstructSecret p chosen t = secret := by
  haveI : Fact p.Prime := ⟨hp⟩
  have hshares : shares = (List.range' 1 n).map fun x => (x, shareValue p secret t rs x) := by
    have := hgen
    rw [generateShares, if_neg (Nat.not_le.mpr ht)] at this
    exact (Option.some_inj.mp this).symm
  -- every chosen share is determined by its evaluation point
  have hpt : ∀ s ∈ chosen, s = (s.1, shareValue p secret t rs s.1) := by
    intro s hs
    have := hsub s hs
    rw [hshares, List.mem_map] at this
    obtain ⟨x, hx, rfl⟩ := this
    rfl
  have hch : chosen = (chosen.map Prod.fst).map fun x => (x, shareValue p secret t rs x) := by
    rw [List.map_map]
    conv_lhs => rw [← List.map_id chosen]
    exact List.map_congr_left fun s hs => hpt s hs
  have hxlt : ∀ x ∈ chosen.map Prod.fst, x < p := by
    intro x hx
    rw [List.mem_map] at hx
    obtain ⟨s, hs, rfl⟩ := hx
    have := hsub s hs
    rw [hshares, List.mem_map] at this
    obtain ⟨y, hy, rfl⟩ := this
    have := List.mem_range'_1.mp hy
    omega
  have hxlen : (chosen.map Prod.fst).length = t := by rw [List.length_map, hchlen]
  have hdeg : (sharePoly p secret rs).degree <
      ((chosen.map Prod.fst).length : WithBot Nat) := by
    rw [hxlen]
    have := sharePoly_degree_lt (p := p) secret rs
    rw [hlen] at this
    have ht1 : t - 1 + 1 = t := by omega
    rwa [ht1] at this
  have hmain := recon_eval (p := p) (chosen.map Prod.fst) (shareValue p secret t rs) hnd
    hxlt (sharePoly p secret rs) hdeg (fun x _ => shareValue_cast secret t hlen x)
  rw [← hch, hxlen, sharePoly_eval_zero] at hmain
  exact castEq_of_lt (fieldSum_lt hp.pos _) hsec hmain

/-- Witness for the amended claim C1: secret 3 shared as 3 + x over the
prime-7 field, three shares, threshold 2, reconstructed from the shares
at the points 3 and 1 (in that order). -/
theorem claim_C1_witness : reconstructSecret 7 [(3, 6), (1, 4)] 2 = 3 :=
  claim_C1 7 3 3 2 [1] (by norm_num) (by decide) (by decide) (by decide) (by decide)
    [(1, 4), (2, 5), (3, 6)] [(3, 6), (1, 4)] (by decide) (by decide) (by decide)
    (by decide)

/-- The specification formula for reconstruct_secret written directly in
the field ZMod p, with the inner product ranging over ALL given shares
with a different evaluation point (the amended reading): the sum over the
first t shares (x, y) of y times the product of (-x_j) / (x - x_j). -/
def reconFormula (p : Nat) (shares : List (Nat × Nat)) (threshold : Nat) : ZMod p :=
  ((shares.take threshold).map fun s =>
    (s.2 : ZMod p) * ((shares.filter fun sj => s.1 ≠ sj.1).map fun sj =>
      ((-(sj.1 : Int) : Int) : ZMod p) *
        (((s.1 : Int) - (sj.1 : Int) : Int) : ZMod p)⁻¹).prod).sum

/-- Claim C7 (counterexample): shares beyond the first t DO affect the
result — appending a third share changes the reconstruction computed
from threshold 2. -/
theorem claim_C7_counterexample :
    reconstructSecret 7 [(1, 1), (2, 2), (3, 3)] 2 ≠
      reconstructSecret 7 [(1, 1), (2, 2)] 2 := by
  decide

/-- Claim C7 (amended): reconstruct_secret computes, in the field, the
sum over the first t shares of y_i times the product over ALL shares j
with a different evaluation point of (-x_j)/(x_i - x_j); the division is
the field inverse, with inverse of zero evaluating to zero. -/
theorem claim_C7 (p : Nat) (hp : p.Prime) (shares : List (Nat × Nat)) (threshold : Nat) :
    ((reconstructSecret p shares threshold : Nat) : ZMod p) =
      reconFormula p shares threshold := by
  haveI : Fact p.Prime := ⟨hp⟩
  unfold reconstructSecret reconFormula
  rw [fieldSum_cast, List.map_map]
  refine congrArg List.sum (List.map_congr_left fun s hs => ?_)
  rw [Function.comp_apply, fieldMul_cast, fieldProd_cast, List.map_map]
  congr 1
  refine congrArg List.prod (List.map_congr_left fun sj hsj => ?_)
  rw [Function.comp_apply, fieldMul_cast, fieldFromInt_cast hp.pos,
    fieldInverse_cast (fieldFromInt_lt hp.pos _), fieldFromInt_cast hp.pos]

/-- Witness for the amended claim C7. -/
theorem claim_C7_witness :
    ((reconstructSecret 7 [(1, 2), (3, 4)] 2 : Nat) : ZMod 7) =
      reconFormula 7 [(1, 2), (3, 4)] 2 :=
  claim_C7 7 (by norm_num) [(1, 2), (3, 4)] 2

/-! ## Linear share combinators and Beaver multiplication
(jester_sharing/src/threshold_sharing/shamir_secret_sharing.rs,
jester_sharing/src/multiplication/beaver_randomization_multiplication.rs,
jester_sharing/src/beaver_randomization_multiplication.rs) -/

/-- LinearSharingScheme::add_shares (the source asserts equal evaluation
points first; all uses below satisfy that precondition). -/
def addShares (p : Nat) (l r : Nat × Nat) : Nat × Nat := (l.1, fieldAdd p l.2 r.2)

/-- LinearSharingScheme::sub_shares (equal-point assertion as above). -/
def subShares (p : Nat) (l r : Nat × Nat) : Nat × Nat := (l.1, fieldSub p l.2 r.2)

/-- LinearSharingScheme::add_scalar. -/
def addScalar (p : Nat) (s : Nat × Nat) (k : Nat) : Nat × Nat := (s.1, fieldAdd p s.2 k)

/-- LinearSharingScheme::sub_scalar. -/
def subScalar (p : Nat) (s : Nat × Nat) (k : Nat) : Nat × Nat := (s.1, fieldSub p s.2 k)

/-- LinearSharingScheme::multiply_scalar. -/
def mulScalar (p : Nat) (s : Nat × Nat) (k : Nat) : Nat × Nat := (s.1, fieldMul p s.2 k)

/-- LinearSharingScheme::sum_shares: none on the empty slice, otherwise
the first evaluation point paired with the field sum of all values (the
source asserts all points agree). -/
def sumShares (p : Nat) (shares : List (Nat × Nat)) : Option (Nat × Nat) :=
  match shares with
  | [] => none
  | s :: _ => some (s.1, fieldSum p (shares.map Prod.snd))

/-- MultiplicationScheme::multiply of the multiplication module: consume
one Beaver triple (a, b, c), form the epsilon share lhs - a and the delta
share rhs - b, reveal both through the protocol (the reveal round is
abstracted as a function argument) and return
add_scalar(c + b*epsilon + a*delta, epsilon*delta). -/
def beaverMultiply (p : Nat) (reveal : Nat × Nat → Nat) (lhs rhs a b c : Nat × Nat) :
    Nat × Nat :=
  let epsilonShare := subShares p lhs a
  let deltaShare := subShares p rhs b
  let delta := reveal deltaShare
  let epsilon := reveal epsilonShare
  addScalar p (addShares p (addShares p c (mulScalar p b epsilon))
    (mulScalar p a delta)) (fieldMul p epsilon delta)

/-- UnboundedMultiplicationScheme::unbounded_multiply of the
multiplication module: the pairs are zipped with the obtained triples and
each entry is combined exactly as in the single multiply. -/
def beaverUnboundedMultiply (p : Nat) (reveal : Nat × Nat → Nat)
    (pairs : List ((Nat × Nat) × (Nat × Nat)))
    (triples : List ((Nat × Nat) × (Nat × Nat) × (Nat × Nat))) : List (Nat × Nat) :=
  (pairs.zip triples).map fun pt =>
    let epsilonShare := subShares p pt.1.1 pt.2.1
    let deltaShare := subShares p pt.1.2 pt.2.2.1
    let delta := reveal deltaShare
    let epsilon := reveal epsilonShare
    addScalar p (addShares p (addShares p pt.2.2.2 (mulScalar p pt.2.2.1 epsilon))
      (mulScalar p pt.2.1 delta)) (fieldMul p epsilon delta)

/-- The legacy multiply of the crate-root beaver file: identical except
that it finishes with sub_scalar, i.e. subtracts epsilon*delta. -/
def beaverMultiplyLegacy (p : Nat) (reveal : Nat × Nat → Nat)
    (lhs rhs a b c : Nat × Nat) : Nat × Nat :=
  let epsilonShare := subShares p lhs a
  let deltaShare := subShares p rhs b
  let delta := reveal deltaShare
  let epsilon := reveal epsilonShare
  subScalar p (addShares p (addShares p c (mulScalar p b epsilon))
    (mulScalar p a delta)) (fieldMul p epsilon delta)

/-- Claim C2 (counterexample): with the degenerate reveal of the test
implementations (a share reveals to its own value), the cited multiply
returns c + epsilon*b + delta*a PLUS epsilon*delta, which differs from
the claimed formula with minus (computed by the legacy multiply). -/
theorem claim_C2_counterexample :
    beaverMultiply 7 Prod.snd (1, 2) (1, 3) (1, 1) (1, 1) (1, 1) = (1, 6) ∧
    beaverMultiplyLegacy 7 Prod.snd (1, 2) (1, 3) (1, 1) (1, 1) (1, 1) = (1, 2) ∧
    ((1, 6) : Nat × Nat) ≠ (1, 2) := by
  decide

/-- Claim C2 (amended): for every reveal round and all shares, the share
returned by multiply in the multiplication module carries c's evaluation
point and the field value c + epsilon*b + delta*a + epsilon*delta (plus,
not minus); the batch unbounded_multiply agrees entry-wise with multiply;
the legacy crate-root multiply computes the minus variant. -/
theorem claim_C2 (p : Nat) (hp : 0 < p) (reveal : Nat × Nat → Nat)
    (x y a b c : Nat × Nat) :
    ((beaverMultiply p reveal x y a b c).1 = c.1 ∧
      (((beaverMultiply p reveal x y a b c).2 : Nat) : ZMod p) =
        (c.2 : ZMod p) +
          (reveal (subShares p x a) : ZMod p) * (b.2 : ZMod p) +
          (reveal (subShares p y b) : ZMod p) * (a.2 : ZMod p) +
          (reveal (subShares p x a) : ZMod p) * (reveal (subShares p y b) : ZMod p)) ∧
    (∀ pairs triples, beaverUnboundedMultiply p reveal pairs triples =
      (pairs.zip triples).map fun pt =>
        beaverMultiply p reveal pt.1.1 pt.1.2 pt.2.1 pt.2.2.1 pt.2.2.2) ∧
    (((beaverMultiplyLegacy p reveal x y a b c).2 : Nat) : ZMod p) =
      (c.2 : ZMod p) +
        (reveal (subShares p x a) : ZMod p) * (b.2 : ZMod p) +
        (reveal (subShares p y b) : ZMod p) * (a.2 : ZMod p) -
        (reveal (subShares p x a) : ZMod p) * (reveal (subShares p y b) : ZMod p) := by
  refine ⟨⟨rfl, ?_⟩, fun pairs triples => rfl, ?_⟩
  · simp only [beaverMultiply, addScalar, addShares, mulScalar, fieldAdd_cast,
      fieldMul_cast]
    ring
  · simp only [beaverMultiplyLegacy, subScalar, addShares, mulScalar]
    rw [fieldSub_cast _ (le_of_lt (fieldMul_lt hp _ _))]
    simp only [fieldAdd_cast, fieldMul_cast]
    ring

/-- Witness for the amended claim C2 in the degenerate reveal setting. -/
theorem claim_C2_witness :
    ((beaverMultiply 7 Prod.snd (1, 2) (1, 3) (1, 1) (1, 1) (1, 1)).1 = 1 ∧
      (((beaverMultiply 7 Prod.snd (1, 2) (1, 3) (1, 1) (1, 1) (1, 1)).2 : Nat) : ZMod 7) =
        ((1 : Nat) : ZMod 7) +
          ((Prod.snd (subShares 7 (1, 2) (1, 1)) : Nat) : ZMod 7) * ((1 : Nat) : ZMod 7) +
          ((Prod.snd (subShares 7 (1, 3) (1, 1)) : Nat) : ZMod 7) * ((1 : Nat) : ZMod 7) +
          ((Prod.snd (subShares 7 (1, 2) (1, 1)) : Nat) : ZMod 7) *
            ((Prod.snd (subShares 7 (1, 3) (1, 1)) : Nat) : ZMod 7)) ∧
    beaverUnboundedMultiply 7 Prod.snd [((1, 2), (1, 3))] [((1, 1), (1, 1), (1, 1))] =
      [beaverMultiply 7 Prod.snd (1, 2) (1, 3) (1, 1) (1, 1) (1, 1)] :=
  ⟨(claim_C2 7 (by decide) Prod.snd (1, 2) (1, 3) (1, 1) (1, 1) (1, 1)).1,
    (claim_C2 7 (by decide) Prod.snd (1, 2) (1, 3) (1, 1) (1, 1) (1, 1)).2.1
      [((1, 2), (1, 3))] [((1, 1), (1, 1), (1, 1))]⟩


/-! ## The Beaver multiplication protocol over a Shamir clique -/

/-- Modelled from the spec: CliqueCommunicationScheme::reveal_shares has
no implementation under src (the transport is only a trait); following
section 4.G, a reveal round collects every party's share of the secret
and reconstructs it with the threshold sharing scheme. -/
def revealAll (p t : Nat) (shares : List (Nat × Nat)) : Nat :=
  reconstructSecret p shares t

/-- The unbounded Beaver multiplication round structure for one pair,
carried out by all parties of a Shamir clique: party k holds the k-th
entries of the share lists; the epsilon and delta shares are formed
party-wise with sub_shares, the two reveal rounds reconstruct epsilon and
delta, and every party combines its triple shares with the two public
values exactly as in unbounded_multiply. -/
def beaverProtocolRun (p t : Nat) (xsh ysh ash bsh csh : List (Nat × Nat)) :
    List (Nat × Nat) :=
  let epsilon := revealAll p t (List.zipWith (subShares p) xsh ash)
  let delta := revealAll p t (List.zipWith (subShares p) ysh bsh)
  (ash.zip (bsh.zip csh)).map fun abc =>
    addScalar p (addShares p (addShares p abc.2.2 (mulScalar p abc.2.1 epsilon))
      (mulScalar p abc.1 delta)) (fieldMul p epsilon delta)

/-- The same round structure with the legacy crate-root combination,
which subtracts epsilon*delta (sub_scalar) instead of adding it. -/
def beaverProtocolRunLegacy (p t : Nat) (xsh ysh ash bsh csh : List (Nat × Nat)) :
    List (Nat × Nat) :=
  let epsilon := revealAll p t (List.zipWith (subShares p) xsh ash)
  let delta := revealAll p t (List.zipWith (subShares p) ysh bsh)
  (ash.zip (bsh.zip csh)).map fun abc =>
    subScalar p (addShares p (addShares p abc.2.2 (mulScalar p abc.2.1 epsilon))
      (mulScalar p abc.1 delta)) (fieldMul p epsilon delta)

theorem zipWith_map_same {A B C : Type} (g : B -> B -> C) (u v : A -> B) (l : List A) :
    List.zipWith g (l.map u) (l.map v) = l.map fun x => g (u x) (v x) := by
  induction l with
  | nil => rfl
  | cons x xs ih => simp [ih]

theorem foldl_shareStep_lt {p : Nat} (hp : 0 < p) (x : Nat) (l : List (Nat × Nat))
    {a : Nat} (ha : a < p) :
    l.foldl (fun akk iv => fieldAdd p akk (fieldMul p iv.2 (x ^ iv.1 % p))) a < p := by
  induction l generalizing a with
  | nil => exact ha
  | cons iv l ih => exact ih (fieldAdd_lt hp _ _)

theorem shareValue_lt {p : Nat} (hp : 0 < p) {secret : Nat} (threshold : Nat)
    (rs : List Nat) (x : Nat) (hsec : secret < p) :
    shareValue p secret threshold rs x < p :=
  foldl_shareStep_lt hp x _ hsec

/-- Claim C3 (counterexample): the legacy parallel_multiply (crate-root
beaver file, sub_scalar combination) violates the claim: secrets
x = 2, y = 3 and the Beaver triple (1, 1, 1) with c = a*b, shared over
two parties with threshold 2 in the prime-7 field, reconstruct to 2
instead of x*y = 6. -/
theorem claim_C3_counterexample :
    reconstructSecret 7 [(1, 3), (2, 4)] 2 = 2 ∧
    reconstructSecret 7 [(1, 4), (2, 5)] 2 = 3 ∧
    reconstructSecret 7 [(1, 2), (2, 3)] 2 = 1 ∧
    reconstructSecret 7 [(1, 3), (2, 5)] 2 = 1 ∧
    fieldMul 7 1 1 = 1 ∧
    reconstructSecret 7
      (beaverProtocolRunLegacy 7 2 [(1, 3), (2, 4)] [(1, 4), (2, 5)]
        [(1, 2), (2, 3)] [(1, 2), (2, 3)] [(1, 3), (2, 5)]) 2 = 2 ∧
    fieldMul 7 2 3 = 6 ∧ (2 : Nat) ≠ 6 := by
  decide

/-- Claim C3 (amended): for the Beaver rerandomization multiplication of
the multiplication module (unbounded_multiply and multiply, the + eps*delta
combination), the reconstruction of the protocol output over a Shamir
clique equals x*y in the field whenever the triple reconstructions
satisfy c = a*b; the legacy crate-root parallel_multiply does not satisfy
this. -/
theorem claim_C3 (p : Nat) (hp : p.Prime) (t : Nat) (ht : 0 < t) (sel : List Nat)
    (hts : sel.length = t) (hnd : sel.Nodup) (hlt : ∀ i ∈ sel, i < p)
    (sx sy sa sb sc : Nat) (rx ry ra rb rc : List Nat)
    (hsx : sx < p) (hsy : sy < p) (hsa : sa < p) (hsb : sb < p) (hsc : sc < p)
    (hlx : rx.length = t - 1) (hly : ry.length = t - 1) (hla : ra.length = t - 1)
    (hlb : rb.length = t - 1) (hlc : rc.length = t - 1)
    (hbeaver : sc = fieldMul p sa sb) :
    reconstructSecret p
      (beaverProtocolRun p t
        (sel.map fun i => (i, shareValue p sx t rx i))
        (sel.map fun i => (i, shareValue p sy t ry i))
        (sel.map fun i => (i, shareValue p sa t ra i))
        (sel.map fun i => (i, shareValue p sb t rb i))
        (sel.map fun i => (i, shareValue p sc t rc i))) t = fieldMul p sx sy := by
  haveI : Fact p.Prime := ⟨hp⟩
  have hdegP : ∀ (s : Nat) (rs : List Nat), rs.length = t - 1 →
      (sharePoly p s rs).degree < (sel.length : WithBot Nat) := by
    intro s rs hlen
    have hd := sharePoly_degree_lt (p := p) s rs
    rw [hlen] at hd
    have h1 : t - 1 + 1 = t := by omega
    rw [h1] at hd
    rwa [hts]
  have hCmul : ∀ (e : ZMod p) (Q : Polynomial (ZMod p)),
      (Polynomial.C e * Q).degree ≤ Q.degree := by
    intro e Q
    refine le_trans (Polynomial.degree_mul_le _ _) ?_
    calc (Polynomial.C e).degree + Q.degree ≤ 0 + Q.degree :=
      add_le_add_right Polynomial.degree_C_le _
    _ = Q.degree := zero_add _
  -- the epsilon and delta share lists collapse to mapped value functions
  have heps : List.zipWith (subShares p) (sel.map fun i => (i, shareValue p sx t rx i))
      (sel.map fun i => (i, shareValue p sa t ra i)) =
      sel.map fun i => (i, fieldSub p (shareValue p sx t rx i) (shareValue p sa t ra i)) := by
    rw [zipWith_map_same]
    rfl
  have hdel : List.zipWith (subShares p) (sel.map fun i => (i, shareValue p sy t ry i))
      (sel.map fun i => (i, shareValue p sb t rb i)) =
      sel.map fun i => (i, fieldSub p (shareValue p sy t ry i) (shareValue p sb t rb i)) := by
    rw [zipWith_map_same]
    rfl
  -- the reconstructed epsilon and delta are x - a and y - b in the field
  have hepsv : ((revealAll p t (sel.map fun i =>
      (i, fieldSub p (shareValue p sx t rx i) (shareValue p sa t ra i))) : Nat) : ZMod p) =
      (sx : ZMod p) - (sa : ZMod p) := by
    have hv : ∀ i ∈ sel, ((fieldSub p (shareValue p sx t rx i) (shareValue p sa t ra i) :
        Nat) : ZMod p) = (sharePoly p sx rx - sharePoly p sa ra).eval (i : ZMod p) := by
      intro i _
      rw [fieldSub_cast _ (le_of_lt (shareValue_lt hp.pos t ra i hsa)),
        shareValue_cast sx t hlx, shareValue_cast sa t hla, Polynomial.eval_sub]
    have hz := recon_eval (p := p) sel
      (fun i => fieldSub p (shareValue p sx t rx i) (shareValue p sa t ra i)) hnd hlt
      (sharePoly p sx rx - sharePoly p sa ra)
      (lt_of_le_of_lt (Polynomial.degree_sub_le _ _)
        (max_lt (hdegP sx rx hlx) (hdegP sa ra hla))) hv
    rw [hts] at hz
    rw [revealAll, hz, Polynomial.eval_sub, sharePoly_eval_zero, sharePoly_eval_zero]
  have hdelv : ((revealAll p t (sel.map fun i =>
      (i, fieldSub p (shareValue p sy t ry i) (shareValue p sb t rb i))) : Nat) : ZMod p) =
      (sy : ZMod p) - (sb : ZMod p) := by
    have hv : ∀ i ∈ sel, ((fieldSub p (shareValue p sy t ry i) (shareValue p sb t rb i) :
        Nat) : ZMod p) = (sharePoly p sy ry - sharePoly p sb rb).eval (i : ZMod p) := by
      intro i _
      rw [fieldSub_cast _ (le_of_lt (shareValue_lt hp.pos t rb i hsb)),
        shareValue_cast sy t hly, shareValue_cast sb t hlb, Polynomial.eval_sub]
    have hz := recon_eval (p := p) sel
      (fun i => fieldSub p (shareValue p sy t ry i) (shareValue p sb t rb i)) hnd hlt
      (sharePoly p sy ry - sharePoly p sb rb)
      (lt_of_le_of_lt (Polynomial.degree_sub_le _ _)
        (max_lt (hdegP sy ry hly) (hdegP sb rb hlb))) hv
    rw [hts] at hz
    rw [revealAll, hz, Polynomial.eval_sub, sharePoly_eval_zero, sharePoly_eval_zero]
  -- name the two public values
  set E : Nat := revealAll p t (sel.map fun i =>
    (i, fieldSub p (shareValue p sx t rx i) (shareValue p sa t ra i))) with hE
  set D : Nat := revealAll p t (sel.map fun i =>
    (i, fieldSub p (shareValue p sy t ry i) (shareValue p sb t rb i))) with hD
  -- the output share list is a mapped value function over the points
  have hzip : ((sel.map fun i => (i, shareValue p sa t ra i)).zip
      ((sel.map fun i => (i, shareValue p sb t rb i)).zip
        (sel.map fun i => (i, shareValue p sc t rc i)))) =
      sel.map fun i => ((i, shareValue p sa t ra i),
        (i, shareValue p sb t rb i), (i, shareValue p sc t rc i)) := by
    rw [List.zip_map', List.zip_map']
  have hlist : beaverProtocolRun p t
      (sel.map fun i => (i, shareValue p sx t rx i))
      (sel.map fun i => (i, shareValue p sy t ry i))
      (sel.map fun i => (i, shareValue p sa t ra i))
      (sel.map fun i => (i, shareValue p sb t rb i))
      (sel.map fun i => (i, shareValue p sc t rc i)) =
      sel.map fun i => (i, fieldAdd p (fieldAdd p (fieldAdd p (shareValue p sc t rc i)
        (fieldMul p (shareValue p sb t rb i) E)) (fieldMul p (shareValue p sa t ra i) D))
        (fieldMul p E D)) := by
    simp only [beaverProtocolRun]
    rw [heps, hdel, hzip, List.map_map]
    rfl
  rw [hlist]
  -- reconstruct the combined shares through the combination polynomial
  have hQ : ∀ i ∈ sel, ((fieldAdd p (fieldAdd p (fieldAdd p (shareValue p sc t rc i)
      (fieldMul p (shareValue p sb t rb i) E)) (fieldMul p (shareValue p sa t ra i) D))
      (fieldMul p E D) : Nat) : ZMod p) =
      (sharePoly p sc rc + Polynomial.C (E : ZMod p) * sharePoly p sb rb +
        Polynomial.C (D : ZMod p) * sharePoly p sa ra +
        Polynomial.C ((E : ZMod p) * (D : ZMod p))).eval (i : ZMod p) := by
    intro i _
    rw [fieldAdd_cast, fieldAdd_cast, fieldAdd_cast, fieldMul_cast, fieldMul_cast,
      fieldMul_cast, shareValue_cast sc t hlc, shareValue_cast sb t hlb,
      shareValue_cast sa t hla]
    simp only [Polynomial.eval_add, Polynomial.eval_mul, Polynomial.eval_C]
    ring
  have hdeg : (sharePoly p sc rc + Polynomial.C (E : ZMod p) * sharePoly p sb rb +
      Polynomial.C (D : ZMod p) * sharePoly p sa ra +
      Polynomial.C ((E : ZMod p) * (D : ZMod p))).degree <
      (sel.length : WithBot Nat) := by
    have hn : (0 : WithBot Nat) < (sel.length : WithBot Nat) := by
      rw [hts]
      exact_mod_cast ht
    refine lt_of_le_of_lt (Polynomial.degree_add_le _ _) (max_lt ?_ ?_)
    · refine lt_of_le_of_lt (Polynomial.degree_add_le _ _) (max_lt ?_ ?_)
      · refine lt_of_le_of_lt (Polynomial.degree_add_le _ _) (max_lt ?_ ?_)
        · exact hdegP sc rc hlc
        · exact lt_of_le_of_lt (hCmul _ _) (hdegP sb rb hlb)
      · exact lt_of_le_of_lt (hCmul _ _) (hdegP sa ra hla)
    · exact lt_of_le_of_lt Polynomial.degree_C_le hn
  have hz := recon_eval (p := p) sel
    (fun i => fieldAdd p (fieldAdd p (fieldAdd p (shareValue p sc t rc i)
      (fieldMul p (shareValue p sb t rb i) E)) (fieldMul p (shareValue p sa t ra i) D))
      (fieldMul p E D)) hnd hlt _ hdeg hQ
  rw [hts] at hz
  refine castEq_of_lt (fieldSum_lt hp.pos _) (fieldMul_lt hp.pos _ _) ?_
  rw [hz, fieldMul_cast]
  simp only [Polynomial.eval_add, Polynomial.eval_mul, Polynomial.eval_C,
    sharePoly_eval_zero]
  have hscv : ((sc : Nat) : ZMod p) = (sa : ZMod p) * (sb : ZMod p) := by
    rw [hbeaver, fieldMul_cast]
  rw [hscv, hepsv, hdelv]
  ring

/-- Witness for the amended claim C3: x = 2 and y = 3 multiplied over two
parties of the prime-7 clique with the Beaver triple (1, 1, 1). -/
theorem claim_C3_witness :
    reconstructSecret 7
      (beaverProtocolRun 7 2
        ([1, 2].map fun i => (i, shareValue 7 2 2 [1] i))
        ([1, 2].map fun i => (i, shareValue 7 3 2 [1] i))
        ([1, 2].map fun i => (i, shareValue 7 1 2 [1] i))
        ([1, 2].map fun i => (i, shareValue 7 1 2 [1] i))
        ([1, 2].map fun i => (i, shareValue 7 1 2 [2] i))) 2 = fieldMul 7 2 3 :=
  claim_C3 7 (by norm_num) 2 (by decide) [1, 2] (by decide) (by decide) (by decide)
    2 3 1 1 1 [1] [1] [1] [1] [2] (by decide) (by decide) (by decide) (by decide)
    (by decide) (by decide) (by decide) (by decide) (by decide) (by decide) (by decide)


/-! ## The Double-Ratchet state machine (jester_double_ratchet/src/lib.rs)

The protocol is generic over the Diffie-Hellman scheme, the symmetric
encryption scheme and the two key-derivation functions; the embedding
instantiates every key, ciphertext and plaintext type with Nat and passes
the primitive operations in as a record of functions.  The rng draw used
by the single key generation inside decrypt_message is an explicit
argument.  HashMap is embedded as a function into Option. -/

structure DRScheme where
  dhKeyGen : Nat → Nat × Nat
  dhShared : Nat → Nat → Nat
  rootKdf : Nat → Nat → Nat × Nat
  msgKdf : Nat → Nat × Nat
  encrypt : Nat → Nat → Nat
  decrypt : Nat → Nat → Nat

/-- DoubleRatchetAlgorithmMessage. -/
structure DRMessage where
  publicKey : Nat
  messageNumber : Nat
  previousChainLength : Nat
  message : Option Nat
deriving DecidableEq

/-- DoubleRatchetProtocol state fields (phase tags are phantom in the
source; the Established operations below require the fields they unwrap). -/
structure DRState where
  dhGenerator : Nat
  dhPublicKey : Nat
  dhPrivateKey : Option Nat
  dhReceivedKey : Option Nat
  rootChainKey : Option Nat
  sendingChainKey : Option Nat
  receivingChainKey : Option Nat
  sendingChainLength : Nat
  receivingChainLength : Nat
  previousSendingChainLength : Nat
  previousReceivingChainLength : Nat
  missedMessages : Nat × Nat → Option Nat

/-- HashMap::insert on the embedded map. -/
def mapInsert (m : Nat × Nat → Option Nat) (k : Nat × Nat) (v : Nat) :
    Nat × Nat → Option Nat :=
  fun x => if x = k then some v else m x

/-- HashMap::remove on the embedded map (the removed value is read
beforehand by the caller). -/
def mapRemove (m : Nat × Nat → Option Nat) (k : Nat × Nat) :
    Nat × Nat → Option Nat :=
  fun x => if x = k then none else m x

/-- The exceptions of detect_missing_messages. -/
inductive DRProtocolException where
  | outOfOrderMessage (publicKey : Nat) (messageNumber : Nat)
  | illegalMessageHeader
deriving DecidableEq

/-- The decryption results: the source returns
Result<Box<[u8]>, DecryptionException>, flattened here into one sum. -/
inductive DecryptResult where
  | ok (plaintext : Nat)
  | invalidMessageHeader
  | outOfOrderMessage (plaintext : Nat)
  | unknownMessageHeader
deriving DecidableEq

/-- detect_missing_messages: classify the inbound header against the
state; returns (missed in current chain, missed in next chain). -/
def detectMissingMessages (st : DRState) (msg : DRMessage) :
    Except DRProtocolException (Nat × Nat) :=
  match st.dhReceivedKey with
  | none => Except.ok (0, msg.messageNumber)
  | some rk =>
      if msg.publicKey = rk then
        if st.receivingChainLength ≤ msg.messageNumber then
          Except.ok (msg.messageNumber - st.receivingChainLength, 0)
        else
          Except.error (DRProtocolException.outOfOrderMessage msg.publicKey msg.messageNumber)
      else
        if st.receivingChainLength ≤ msg.previousChainLength then
          Except.ok (msg.previousChainLength - st.receivingChainLength, msg.messageNumber)
        else
          Except.error DRProtocolException.illegalMessageHeader

/-- encrypt_message: advance the sending ratchet, capture the
pre-increment sending_chain_length as the message number, increment, and
emit the message (none models the unwrap panic on a missing chain key). -/
def encryptMessage (sch : DRScheme) (st : DRState) (plaintext : Nat) :
    Option (DRState × DRMessage) :=
  match st.sendingChainKey with
  | none => none
  | some ck =>
      let r := sch.msgKdf ck
      let currentMessageNumber := st.sendingChainLength
      some ({ st with
                sendingChainKey := some r.1,
                sendingChainLength := st.sendingChainLength + 1 },
        { publicKey := st.dhPublicKey,
          messageNumber := currentMessageNumber,
          previousChainLength := st.previousSendingChainLength,
          message := some (sch.encrypt r.2 plaintext) })

/-- The first while loop of decrypt_message: once per missed message of
the current chain, advance the receiving ratchet, increment
receiving_chain_length, and insert the output key into missed_messages
under (received key, receiving_chain_length AFTER the increment). -/
def storeMissedCurrent (sch : DRScheme) : Nat → DRState → Option DRState
  | 0, st => some st
  | n + 1, st =>
      match st.receivingChainKey, st.dhReceivedKey with
      | some ck, some rk =>
          let r := sch.msgKdf ck
          let rl := st.receivingChainLength + 1
          storeMissedCurrent sch n { st with
            receivingChainKey := some r.1,
            receivingChainLength := rl,
            missedMessages := mapInsert st.missedMessages (rk, rl) r.2 }
      | _, _ => none

/-- The second while loop of decrypt_message (new chain): increment
receiving_chain_length, advance the local receiving chain key, and insert
the output key under (inbound public key, incremented length). -/
def storeMissedNext (sch : DRScheme) (msgPk : Nat) : Nat → Nat × DRState → Nat × DRState
  | 0, ckst => ckst
  | n + 1, ckst =>
      let rl := ckst.2.receivingChainLength + 1
      let r := sch.msgKdf ckst.1
      storeMissedNext sch msgPk n (r.1, { ckst.2 with
        receivingChainLength := rl,
        missedMessages := mapInsert ckst.2.missedMessages (msgPk, rl) r.2 })

/-- decrypt_message on an Established session; none models the panics of
the unwrap calls (absent cipher, absent chain keys). -/
def decryptMessage (sch : DRScheme) (st : DRState) (msg : DRMessage) (draw : Nat) :
    Option (DRState × DecryptResult) :=
  match detectMissingMessages st msg with
  | Except.error DRProtocolException.illegalMessageHeader =>
      some (st, DecryptResult.invalidMessageHeader)
  | Except.error (DRProtocolException.outOfOrderMessage pk num) =>
      match st.missedMessages (pk, num) with
      | none => some (st, DecryptResult.unknownMessageHeader)
      | some mk =>
          match msg.message with
          | none => none
          | some c =>
              some ({ st with missedMessages := mapRemove st.missedMessages (pk, num) },
                DecryptResult.outOfOrderMessage (sch.decrypt mk c))
  | Except.ok counts =>
      match storeMissedCurrent sch counts.1 st with
      | none => none
      | some st1 =>
          let newChain : Bool :=
            match st1.dhReceivedKey with
            | none => true
            | some rk => msg.publicKey ≠ rk
          if newChain then
            match st1.dhPrivateKey, st1.rootChainKey, msg.message with
            | some sk, some rck, some c =>
                let shared := sch.dhShared sk msg.publicKey
                let r1 := sch.rootKdf rck shared
                let st2 := { st1 with receivingChainLength := 0 }
                let ckst := storeMissedNext sch msg.publicKey counts.2 (r1.2, st2)
                let r2 := sch.msgKdf ckst.1
                let kp := sch.dhKeyGen draw
                let shared2 := sch.dhShared kp.1 msg.publicKey
                let r3 := sch.rootKdf r1.1 shared2
                some ({ ckst.2 with
                    receivingChainKey := some r2.1,
                    sendingChainKey := some r3.2,
                    dhPublicKey := kp.2,
                    dhPrivateKey := some kp.1,
                    rootChainKey := some r3.1,
                    previousReceivingChainLength := ckst.2.receivingChainLength,
                    previousSendingChainLength := ckst.2.sendingChainLength,
                    sendingChainLength := 0,
                    receivingChainLength := 1 },
                  DecryptResult.ok (sch.decrypt r2.2 c))
            | _, _, _ => none
          else
            match st1.receivingChainKey, msg.message with
            | some ck, some c =>
                let r := sch.msgKdf ck
                some ({ st1 with
                    receivingChainKey := some r.1,
                    receivingChainLength := st1.receivingChainLength + 1 },
                  DecryptResult.ok (sch.decrypt r.2 c))
            | _, _ => none


/-- A concrete primitive instantiation used to evaluate the ratchet: the
message ratchet maps a chain key ck to (ck + 1, 100 + ck) and encryption
embeds the key into the ciphertext as key * 1000000 + plaintext. -/
def drTestScheme : DRScheme :=
  { dhKeyGen := fun d => (d, d + 500), dhShared := fun a b => a + b,
    rootKdf := fun r i => (r + i, r + i + 1), msgKdf := fun ck => (ck + 1, 100 + ck),
    encrypt := fun k m => k * 1000000 + m, decrypt := fun k c => c - k * 1000000 }

/-- The sender side of the evaluation scenario: an Established session
with sending chain key 50 and no messages sent yet. -/
def drSender0 : DRState :=
  { dhGenerator := 2, dhPublicKey := 9, dhPrivateKey := some 3, dhReceivedKey := some 8,
    rootChainKey := some 77, sendingChainKey := some 50, receivingChainKey := some 60,
    sendingChainLength := 0, receivingChainLength := 0, previousSendingChainLength := 0,
    previousReceivingChainLength := 0, missedMessages := fun _ => none }

/-- The matching receiver: its receiving chain starts from the same chain
key 50, tracking the sender's public key 9. -/
def drReceiver0 : DRState :=
  { dhGenerator := 2, dhPublicKey := 8, dhPrivateKey := some 4, dhReceivedKey := some 9,
    rootChainKey := some 77, sendingChainKey := some 60, receivingChainKey := some 50,
    sendingChainLength := 0, receivingChainLength := 0, previousSendingChainLength := 0,
    previousReceivingChainLength := 0, missedMessages := fun _ => none }

/-- The sender's first three messages in the scenario (numbers 0, 1, 2,
encrypted with the derived keys 150, 151, 152). -/
def drMsg0 : DRMessage :=
  { publicKey := 9, messageNumber := 0, previousChainLength := 0, message := some 150000005 }

def drMsg1 : DRMessage :=
  { publicKey := 9, messageNumber := 1, previousChainLength := 0, message := some 151000006 }

def drMsg2 : DRMessage :=
  { publicKey := 9, messageNumber := 2, previousChainLength := 0, message := some 152000007 }

/-- Claim C5 (failing input): the sender assigns message numbers 0, 1, 2
(the pre-increment sending_chain_length), but a receiver that skips
messages 0 and 1 stores their keys under the post-increment
receiving_chain_length, i.e. under the indices 1 and 2 instead of 0 and 1.
Consequently the delayed message 0 fails with UnknownMessage, and the
delayed message 1 is decrypted with message 0's key (garbage: 1000006
instead of the plaintext 6), contradicting the code's own out-of-order
lookup by message_number. -/
theorem claim_C5 :
    ((encryptMessage drTestScheme drSender0 5).map fun r =>
      (r.2.messageNumber, r.2.message)) = some (0, some 150000005) ∧
    (((encryptMessage drTestScheme drSender0 5).bind fun r =>
      encryptMessage drTestScheme r.1 6).map fun r =>
        (r.2.messageNumber, r.2.message)) = some (1, some 151000006) ∧
    ((((encryptMessage drTestScheme drSender0 5).bind fun r =>
      encryptMessage drTestScheme r.1 6).bind fun r =>
        encryptMessage drTestScheme r.1 7).map fun r =>
          (r.2.messageNumber, r.2.message)) = some (2, some 152000007) ∧
    ((decryptMessage drTestScheme drReceiver0 drMsg2 0).map fun r =>
      (r.2, r.1.missedMessages (9, 0), r.1.missedMessages (9, 1),
        r.1.missedMessages (9, 2))) =
      some (DecryptResult.ok 7, none, some 150, some 151) ∧
    (((decryptMessage drTestScheme drReceiver0 drMsg2 0).bind fun r =>
      decryptMessage drTestScheme r.1 drMsg0 0).map fun r => r.2) =
      some DecryptResult.unknownMessageHeader ∧
    (((decryptMessage drTestScheme drReceiver0 drMsg2 0).bind fun r =>
      decryptMessage drTestScheme r.1 drMsg1 0).map fun r => r.2) =
      some (DecryptResult.outOfOrderMessage 1000006) := by
  decide

/-- Claim C10: resolving an out-of-order message removes its buffered key
from the map before returning OutOfOrder(plaintext); a second decryption
with the same (public key, message number) on the resulting state leaves
the state unchanged and fails with the unknown-message error. -/
theorem claim_C10 (sch : DRScheme) (st : DRState) (msg msg2 : DRMessage)
    (draw draw2 : Nat) (rk mk c c2 : Nat)
    (hrk : st.dhReceivedKey = some rk) (hpk : msg.publicKey = rk)
    (hnum : msg.messageNumber < st.receivingChainLength)
    (hmk : st.missedMessages (msg.publicKey, msg.messageNumber) = some mk)
    (hc : msg.message = some c)
    (hpk2 : msg2.publicKey = msg.publicKey)
    (hnum2 : msg2.messageNumber = msg.messageNumber)
    (hc2 : msg2.message = some c2) :
    decryptMessage sch st msg draw =
      some ({ st with
          missedMessages := mapRemove st.missedMessages (msg.publicKey, msg.messageNumber) },
        DecryptResult.outOfOrderMessage (sch.decrypt mk c)) ∧
    ({ st with
        missedMessages := mapRemove st.missedMessages (msg.publicKey, msg.messageNumber)
      } : DRState).missedMessages (msg.publicKey, msg.messageNumber) = none ∧
    decryptMessage sch
      { st with
        missedMessages := mapRemove st.missedMessages (msg.publicKey, msg.messageNumber) }
      msg2 draw2 =
      some ({ st with
          missedMessages := mapRemove st.missedMessages (msg.publicKey, msg.messageNumber) },
        DecryptResult.unknownMessageHeader) := by
  have hdetect : detectMissingMessages st msg =
      Except.error (DRProtocolException.outOfOrderMessage msg.publicKey msg.messageNumber) := by
    unfold detectMissingMessages
    rw [hrk]
    simp [hpk, Nat.not_le.mpr hnum]
  refine ⟨?_, by simp [mapRemove], ?_⟩
  · unfold decryptMessage
    rw [hdetect]
    dsimp only
    rw [hmk]
    dsimp only
    rw [hc]
  · have hdetect2 : detectMissingMessages
        { st with
          missedMessages := mapRemove st.missedMessages (msg.publicKey, msg.messageNumber) }
        msg2 =
        Except.error (DRProtocolException.outOfOrderMessage msg2.publicKey
          msg2.messageNumber) := by
      unfold detectMissingMessages
      simp only
      rw [hrk]
      simp [hpk2, hpk, hnum2, Nat.not_le.mpr hnum]
    unfold decryptMessage
    rw [hdetect2]
    dsimp only
    have hnone : mapRemove st.missedMessages (msg.publicKey, msg.messageNumber)
        (msg2.publicKey, msg2.messageNumber) = none := by
      simp [mapRemove, hpk2, hnum2]
    rw [hnone]

/-- A concrete state holding one buffered out-of-order key under (9, 3). -/
def drC10State : DRState :=
  { drReceiver0 with
    receivingChainLength := 5,
    missedMessages := fun k => if k = (9, 3) then some 40 else none }

/-- The state after the buffered key under (9, 3) has been consumed. -/
def drC10Removed : DRState :=
  { drC10State with
    missedMessages := mapRemove drC10State.missedMessages (9, 3) }

def drC10Msg : DRMessage :=
  { publicKey := 9, messageNumber := 3, previousChainLength := 0,
    message := some 41000000 }

def drC10Msg2 : DRMessage :=
  { publicKey := 9, messageNumber := 3, previousChainLength := 0,
    message := some 55000000 }

/-- Witness for claim C10 at a concrete session state. -/
theorem claim_C10_witness :
    decryptMessage drTestScheme drC10State drC10Msg 0 =
      some (drC10Removed, DecryptResult.outOfOrderMessage 1000000) ∧
    drC10Removed.missedMessages (9, 3) = none ∧
    decryptMessage drTestScheme drC10Removed drC10Msg2 1 =
      some (drC10Removed, DecryptResult.unknownMessageHeader) :=
  claim_C10 drTestScheme drC10State drC10Msg drC10Msg2 0 1 9 40 41000000 55000000
    rfl rfl (by decide) (by decide) rfl rfl rfl rfl


/-! ## The joint unbounded OR
(jester_sharing/src/shared_or_function/joint_unbounded_or.rs), in the
degenerate single-party test setting of tests.rs / test_implementations.rs:
participant 1, a share reveals to its own value, distribute_secret returns
two copies of the secret, all Beaver triples are ((1,1),(1,1),(1,1)), and
the trait delegation wires UnboundedMultiplicationScheme to the Beaver
rerandomization multiply and UnboundedInversionScheme to
JointUnboundedInversion.  Every rng draw is an explicit argument. -/

/-- get_inverted_vandermonde_upper: the upper triangular factor U of the
inverse Vandermonde matrix, computed recursively (the memoisation cache
only saves recomputation).  The row index may reach -1 (a zero row); the
column index is structurally decreasing and stays nonnegative from all
call sites, so it is embedded as a Nat. -/
def vandermondeUpper (p : Nat) (row : Int) : Nat → Nat
  | 0 => if row = 0 then fieldOne else fieldZero
  | c + 1 =>
      if row = (c + 1 : Int) then fieldOne
      else if row = -1 then fieldZero
      else
        fieldSub p (vandermondeUpper p (row - 1) c)
          (fieldMul p (vandermondeUpper p row c) (fieldFromUint p (c + 1)))

/-- get_inverted_vandermonde_lower: the lower triangular factor L, given
in closed form as the inverse of a product of in-field differences. -/
def vandermondeLower (p : Nat) (row column : Int) : Nat :=
  if row < column then fieldZero
  else if row = 0 ∧ column = 0 then fieldOne
  else
    fieldInverse p (fieldProd p
      ((((List.range (row.toNat + 1)).map Int.ofNat).filter fun k => k ≠ column).map
        fun k => fieldSub p (fieldFromInt p column) (fieldFromInt p k)))

/-- get_inverted_vandermonde_entry: sum over the inner index of
U[row][k] * L[k][column]. -/
def vandermondeEntry (p : Nat) (row column : Int) (size : Nat) : Nat :=
  (List.range size).foldl (fun acc k =>
    fieldAdd p acc (fieldMul p (vandermondeUpper p row k)
      (vandermondeLower p (k : Int) column))) 0

/-- The i-th monomial coefficient computed in unbounded_shared_or: the
row of the inverse Vandermonde matrix of size degree+1 multiplied with
the Lagrange sample vector (0, 1, 1, ..., 1). -/
def monomialCoefficient (p degree i : Nat) : Nat :=
  fieldSum p ((List.range (degree + 1)).map fun j =>
    fieldMul p (vandermondeEntry p (i : Int) (j : Int) (degree + 1))
      (fieldFromUint p (if j = 0 then 0 else 1)))

/-- distribute_secret of the degenerate test protocol (participant 1):
two copies of the secret as shares of the zero polynomial. -/
def degDistributeSecret (v : Nat) : List (Nat × Nat) := [(1, v), (1, v)]

/-- reveal_shares of the degenerate test protocol: the share value. -/
def degRevealShares (s : Nat × Nat) : Nat := s.2

/-- SumNonZeroRandomNumberGeneration::generate_random_number_sharing in
the degenerate setting: the nonzero draw r is distributed and the two
received shares are summed (the unwrap is safe, modelled with getD). -/
def degRandomSharing (p : Nat) (r : Nat) : Nat × Nat :=
  (sumShares p (degDistributeSecret r)).getD (0, 0)

/-- obtain_beaver_triples of the test protocol: count copies of the unit
triple ((1,1),(1,1),(1,1)). -/
def degObtainBeaverTriples (count : Nat) :
    List ((Nat × Nat) × (Nat × Nat) × (Nat × Nat)) :=
  List.replicate count ((1, 1), (1, 1), (1, 1))

/-- unbounded_multiply as dispatched in the degenerate test protocol:
the Beaver rerandomization batch multiply with the test triples and the
degenerate reveal. -/
def degUnboundedMultiply (p : Nat) (pairs : List ((Nat × Nat) × (Nat × Nat))) :
    List (Nat × Nat) :=
  beaverUnboundedMultiply p degRevealShares pairs (degObtainBeaverTriples pairs.length)

/-- JointUnboundedInversion::unbounded_inverse in the degenerate setting:
generate one random helper sharing per input (draws given explicitly),
batch-multiply inputs with helpers, reveal the products, and return
helper * revealed_product.inverse() per entry. -/
def degUnboundedInverse (p : Nat) (shares : List (Nat × Nat)) (draws : List Nat) :
    List (Nat × Nat) :=
  let helpers := draws.map (degRandomSharing p)
  let rerandomized := degUnboundedMultiply p (shares.zip helpers)
  let revealed := rerandomized.map degRevealShares
  (revealed.zip helpers).map fun yh => mulScalar p yh.2 (fieldInverse p yh.1)

/-- unbounded_shared_or in the degenerate setting.  ordraws are the L
nonzero random draws for the helpers, invdraws the L nonzero draws used
inside the batched inversion.  Follows the source step by step: the sum
share of all bits plus one, the monomial coefficients via the inverse
Vandermonde matrix, the helpers and their batch inverses, the telescoping
cancellation factors, one batch multiplication of the sum with every
cancellation factor, the reveal of those products, and the final
per-monomial combination. -/
def degUnboundedOr (p : Nat) (bits : List (Nat × Nat)) (ordraws invdraws : List Nat) :
    Nat × Nat :=
  let sum := addScalar p ((sumShares p bits).getD (0, 0)) fieldOne
  let degree := bits.length
  let ms := (List.range (degree + 1)).map (monomialCoefficient p degree)
  let helpers := ordraws.map (degRandomSharing p)
  let invertedHelpers := degUnboundedInverse p helpers invdraws
  let cancellationFactors :=
    match invertedHelpers with
    | [] => ([] : List (Nat × Nat))
    | w :: ws => w :: degUnboundedMultiply p ((helpers.take (degree - 1)).zip ws)
  let factors := degUnboundedMultiply p (cancellationFactors.map fun f => (sum, f))
  let revealedFactors := factors.map degRevealShares
  let powers := (List.range' 1 degree).map fun power =>
    mulScalar p (mulScalar p (helpers.getD (power - 1) (0, 0))
      (fieldProd p (revealedFactors.take power))) (ms.getD power 0)
  (powers.drop 1).foldl (addShares p) (addScalar p (powers.getD 0 (0, 0)) (ms.getD 0 0))


/-! ### Value-level reductions of the degenerate pipeline -/

/-- The output value of one degenerate Beaver multiplication with the
unit test triple: 1 + (u - 1) + (v - 1) + (u - 1)(v - 1), which is u * v
in the field. -/
def degMulVal (p u v : Nat) : Nat :=
  fieldAdd p (fieldAdd p (fieldAdd p 1 (fieldMul p 1 (fieldSub p u 1)))
    (fieldMul p 1 (fieldSub p v 1))) (fieldMul p (fieldSub p u 1) (fieldSub p v 1))

/-- The value of a degenerate random sharing: the nonzero draw distributed
twice and summed. -/
def degRandVal (p r : Nat) : Nat := fieldAdd p (fieldAdd p 0 r) r

theorem degRandomSharing_eq {p r : Nat} : degRandomSharing p r = (1, degRandVal p r) := rfl

theorem zip_replicate {A B : Type} (l : List A) (a : B) :
    l.zip (List.replicate l.length a) = l.map fun x => (x, a) := by
  induction l with
  | nil => rfl
  | cons x xs ih => simp [List.replicate_succ, ih]

theorem degUnboundedMultiply_eq (p : Nat) (pairs : List ((Nat × Nat) × (Nat × Nat))) :
    degUnboundedMultiply p pairs = pairs.map fun pr => (1, degMulVal p pr.1.2 pr.2.2) := by
  unfold degUnboundedMultiply beaverUnboundedMultiply degObtainBeaverTriples
  rw [zip_replicate, List.map_map]
  rfl

theorem degMulVal_lt {p : Nat} (hp : 0 < p) (u v : Nat) : degMulVal p u v < p :=
  fieldAdd_lt hp _ _

theorem degRandVal_lt {p : Nat} (hp : 0 < p) (r : Nat) : degRandVal p r < p :=
  fieldAdd_lt hp _ _

theorem degMulVal_cast {p : Nat} (hp : 1 ≤ p) (u v : Nat) :
    ((degMulVal p u v : Nat) : ZMod p) = (u : ZMod p) * (v : ZMod p) := by
  unfold degMulVal
  rw [fieldAdd_cast, fieldAdd_cast, fieldAdd_cast, fieldMul_cast, fieldMul_cast,
    fieldMul_cast, fieldSub_cast _ hp, fieldSub_cast _ hp]
  push_cast
  ring

theorem degRandVal_cast {p : Nat} (r : Nat) :
    ((degRandVal p r : Nat) : ZMod p) = 2 * (r : ZMod p) := by
  unfold degRandVal
  rw [fieldAdd_cast, fieldAdd_cast]
  push_cast
  ring

theorem fieldInverse_degMulVal_cast {p : Nat} [Fact p.Prime] (u v : Nat) :
    ((fieldInverse p (degMulVal p u v) : Nat) : ZMod p) =
      ((u : ZMod p) * (v : ZMod p))⁻¹ := by
  rw [fieldInverse_cast (degMulVal_lt (Fact.out : p.Prime).pos u v),
    degMulVal_cast (Fact.out : p.Prime).one_lt.le]

instance fact_prime_7 : Fact (Nat.Prime 7) := ⟨by norm_num⟩

theorem degMulVal_cast7 (u v : Nat) :
    ((degMulVal 7 u v : Nat) : ZMod 7) = (u : ZMod 7) * (v : ZMod 7) :=
  degMulVal_cast (by norm_num) u v

theorem fieldInverse_degMulVal_cast7 (u v : Nat) :
    ((fieldInverse 7 (degMulVal 7 u v) : Nat) : ZMod 7) =
      ((u : ZMod 7) * (v : ZMod 7))⁻¹ :=
  fieldInverse_degMulVal_cast u v

theorem natCast_ne_zero_of_bounds {r : Nat} (h1 : 0 < r) (h2 : r < 7) :
    (r : ZMod 7) ≠ 0 := by
  rw [Ne, ZMod.natCast_zmod_eq_zero_iff_dvd]
  exact Nat.not_dvd_of_pos_of_lt h1 h2

theorem degRandVal_cast_ne_zero {r : Nat} (h1 : 0 < r) (h2 : r < 7) :
    ((degRandVal 7 r : Nat) : ZMod 7) ≠ 0 := by
  rw [degRandVal_cast]
  exact mul_ne_zero (by decide) (natCast_ne_zero_of_bounds h1 h2)

theorem W_cast {x y : ZMod 7} (hx : x ≠ 0) (hy : y ≠ 0) :
    y * (x * y)⁻¹ = x⁻¹ := by
  field_simp
  ring

set_option maxHeartbeats 3200000 in
/-- unbounded_shared_or on 1 degenerate bit shares with valid nonzero
draws reveals 0 exactly when every bit is 0, and 1 otherwise. -/
theorem degOr_correct_1 (b1 r1 q1 : Nat) (hb1 : b1 ≤ 1)
    (hr1 : 0 < r1 ∧ r1 < 7)
    (hq1 : 0 < q1 ∧ q1 < 7) :
    (degUnboundedOr 7 [(1, b1)] [r1] [q1]).2 =
      if b1 = 0 then 0 else 1 := by
  have hX1 := degRandVal_cast_ne_zero hr1.1 hr1.2
  have hY1 := degRandVal_cast_ne_zero hq1.1 hq1.2
  have hW1 := W_cast hX1 hY1
  have hm0 : monomialCoefficient 7 1 0 = 6 := by decide
  have hm1 : monomialCoefficient 7 1 1 = 1 := by decide
  simp [degUnboundedOr, degUnboundedInverse, degUnboundedMultiply_eq,
    degRandomSharing_eq, sumShares, fieldSum, addScalar, addShares,
    mulScalar, degRevealShares, hm0, hm1, List.range_succ, List.range'_succ]
  generalize hS : fieldAdd 7 (fieldAdd 7 0 b1) fieldOne = S
  have hT1 : ((fieldMul 7 (fieldMul 7 (degRandVal 7 r1) (fieldProd 7
      [degMulVal 7 S (fieldMul 7 (degRandVal 7 q1) (fieldInverse 7 (degMulVal 7 (degRandVal 7 r1) (degRandVal 7 q1))))])) 1 : Nat) : ZMod 7) = 1 * (S : ZMod 7) ^ 1 := by
    simp only [fieldProd, List.foldl_cons, List.foldl_nil, fieldMul_cast,
      degMulVal_cast7, fieldInverse_degMulVal_cast7, Nat.cast_ofNat,
      Nat.cast_one, Nat.cast_zero]
    simp only [hW1]
    refine Eq.trans (b := ((((degRandVal 7 r1 : Nat) : ZMod 7) * (((degRandVal 7 r1 : Nat) : ZMod 7))⁻¹) * ((1 : ZMod 7) * (S : ZMod 7) ^ 1))) (by ring) ?_
    rw [mul_inv_cancel₀ hX1]
    ring
  refine castEq_of_lt (fieldAdd_lt (by norm_num) _ _) (by split <;> norm_num) ?_
  simp only [fieldAdd_cast, Nat.cast_ofNat, Nat.cast_one, Nat.cast_zero,
    hT1]
  rcases Nat.le_one_iff_eq_zero_or_eq_one.mp hb1 with h | h <;> subst h <;>
      subst hS <;> decide

set_option maxHeartbeats 3200000 in
/-- unbounded_shared_or on 2 degenerate bit shares with valid nonzero
draws reveals 0 exactly when every bit is 0, and 1 otherwise. -/
theorem degOr_correct_2 (b1 b2 r1 r2 q1 q2 : Nat) (hb1 : b1 ≤ 1) (hb2 : b2 ≤ 1)
    (hr1 : 0 < r1 ∧ r1 < 7) (hr2 : 0 < r2 ∧ r2 < 7)
    (hq1 : 0 < q1 ∧ q1 < 7) (hq2 : 0 < q2 ∧ q2 < 7) :
    (degUnboundedOr 7 [(1, b1), (1, b2)] [r1, r2] [q1, q2]).2 =
      if b1 = 0 ∧ b2 = 0 then 0 else 1 := by
  have hX1 := degRandVal_cast_ne_zero hr1.1 hr1.2
  have hX2 := degRandVal_cast_ne_zero hr2.1 hr2.2
  have hY1 := degRandVal_cast_ne_zero hq1.1 hq1.2
  have hY2 := degRandVal_cast_ne_zero hq2.1 hq2.2
  have hW1 := W_cast hX1 hY1
  have hW2 := W_cast hX2 hY2
  have hm0 : monomialCoefficient 7 2 0 = 5 := by decide
  have hm1 : monomialCoefficient 7 2 1 = 6 := by decide
  have hm2 : monomialCoefficient 7 2 2 = 3 := by decide
  simp [degUnboundedOr, degUnboundedInverse, degUnboundedMultiply_eq,
    degRandomSharing_eq, sumShares, fieldSum, addScalar, addShares,
    mulScalar, degRevealShares, hm0, hm1, hm2, List.range_succ, List.range'_succ]
  generalize hS : fieldAdd 7 (fieldAdd 7 (fieldAdd 7 0 b1) b2) fieldOne = S
  have hT1 : ((fieldMul 7 (fieldMul 7 (degRandVal 7 r1) (fieldProd 7
      [degMulVal 7 S (fieldMul 7 (degRandVal 7 q1) (fieldInverse 7 (degMulVal 7 (degRandVal 7 r1) (degRandVal 7 q1))))])) 6 : Nat) : ZMod 7) = 6 * (S : ZMod 7) ^ 1 := by
    simp only [fieldProd, List.foldl_cons, List.foldl_nil, fieldMul_cast,
      degMulVal_cast7, fieldInverse_degMulVal_cast7, Nat.cast_ofNat,
      Nat.cast_one, Nat.cast_zero]
    simp only [hW1]
    refine Eq.trans (b := ((((degRandVal 7 r1 : Nat) : ZMod 7) * (((degRandVal 7 r1 : Nat) : ZMod 7))⁻¹) * ((6 : ZMod 7) * (S : ZMod 7) ^ 1))) (by ring) ?_
    rw [mul_inv_cancel₀ hX1]
    ring
  have hT2 : ((fieldMul 7 (fieldMul 7 (degRandVal 7 r2) (fieldProd 7
      [degMulVal 7 S (fieldMul 7 (degRandVal 7 q1) (fieldInverse 7 (degMulVal 7 (degRandVal 7 r1) (degRandVal 7 q1)))),
        degMulVal 7 S (degMulVal 7 (degRandVal 7 r1) (fieldMul 7 (degRandVal 7 q2) (fieldInverse 7 (degMulVal 7 (degRandVal 7 r2) (degRandVal 7 q2)))))])) 3 : Nat) : ZMod 7) = 3 * (S : ZMod 7) ^ 2 := by
    simp only [fieldProd, List.foldl_cons, List.foldl_nil, fieldMul_cast,
      degMulVal_cast7, fieldInverse_degMulVal_cast7, Nat.cast_ofNat,
      Nat.cast_one, Nat.cast_zero]
    simp only [hW1, hW2]
    refine Eq.trans (b := ((((degRandVal 7 r1 : Nat) : ZMod 7) * (((degRandVal 7 r1 : Nat) : ZMod 7))⁻¹) * ((((degRandVal 7 r2 : Nat) : ZMod 7) * (((degRandVal 7 r2 : Nat) : ZMod 7))⁻¹) * ((3 : ZMod 7) * (S : ZMod 7) ^ 2)))) (by ring) ?_
    rw [mul_inv_cancel₀ hX1, mul_inv_cancel₀ hX2]
    ring
  refine castEq_of_lt (fieldAdd_lt (by norm_num) _ _) (by split <;> norm_num) ?_
  simp only [fieldAdd_cast, Nat.cast_ofNat, Nat.cast_one, Nat.cast_zero,
    hT1, hT2]
  rcases Nat.le_one_iff_eq_zero_or_eq_one.mp hb1 with h | h <;> subst h <;>
      rcases Nat.le_one_iff_eq_zero_or_eq_one.mp hb2 with h | h <;> subst h <;>
      subst hS <;> decide

set_option maxHeartbeats 3200000 in
/-- unbounded_shared_or on 3 degenerate bit shares with valid nonzero
draws reveals 0 exactly when every bit is 0, and 1 otherwise. -/
theorem degOr_correct_3 (b1 b2 b3 r1 r2 r3 q1 q2 q3 : Nat) (hb1 : b1 ≤ 1) (hb2 : b2 ≤ 1) (hb3 : b3 ≤ 1)
    (hr1 : 0 < r1 ∧ r1 < 7) (hr2 : 0 < r2 ∧ r2 < 7) (hr3 : 0 < r3 ∧ r3 < 7)
    (hq1 : 0 < q1 ∧ q1 < 7) (hq2 : 0 < q2 ∧ q2 < 7) (hq3 : 0 < q3 ∧ q3 < 7) :
    (degUnboundedOr 7 [(1, b1), (1, b2), (1, b3)] [r1, r2, r3] [q1, q2, q3]).2 =
      if b1 = 0 ∧ b2 = 0 ∧ b3 = 0 then 0 else 1 := by
  have hX1 := degRandVal_cast_ne_zero hr1.1 hr1.2
  have hX2 := degRandVal_cast_ne_zero hr2.1 hr2.2
  have hX3 := degRandVal_cast_ne_zero hr3.1 hr3.2
  have hY1 := degRandVal_cast_ne_zero hq1.1 hq1.2
  have hY2 := degRandVal_cast_ne_zero hq2.1 hq2.2
  have hY3 := degRandVal_cast_ne_zero hq3.1 hq3.2
  have hW1 := W_cast hX1 hY1
  have hW2 := W_cast hX2 hY2
  have hW3 := W_cast hX3 hY3
  have hm0 : monomialCoefficient 7 3 0 = 4 := by decide
  have hm1 : monomialCoefficient 7 3 1 = 2 := by decide
  have hm2 : monomialCoefficient 7 3 2 = 2 := by decide
  have hm3 : monomialCoefficient 7 3 3 = 6 := by decide
  simp [degUnboundedOr, degUnboundedInverse, degUnboundedMultiply_eq,
    degRandomSharing_eq, sumShares, fieldSum, addScalar, addShares,
    mulScalar, degRevealShares, hm0, hm1, hm2, hm3, List.range_succ, List.range'_succ]
  generalize hS : fieldAdd 7 (fieldAdd 7 (fieldAdd 7 (fieldAdd 7 0 b1) b2) b3) fieldOne = S
  have hT1 : ((fieldMul 7 (fieldMul 7 (degRandVal 7 r1) (fieldProd 7
      [degMulVal 7 S (fieldMul 7 (degRandVal 7 q1) (fieldInverse 7 (degMulVal 7 (degRandVal 7 r1) (degRandVal 7 q1))))])) 2 : Nat) : ZMod 7) = 2 * (S : ZMod 7) ^ 1 := by
    simp only [fieldProd, List.foldl_cons, List.foldl_nil, fieldMul_cast,
      degMulVal_cast7, fieldInverse_degMulVal_cast7, Nat.cast_ofNat,
      Nat.cast_one, Nat.cast_zero]
    simp only [hW1]
    refine Eq.trans (b := ((((degRandVal 7 r1 : Nat) : ZMod 7) * (((degRandVal 7 r1 : Nat) : ZMod 7))⁻¹) * ((2 : ZMod 7) * (S : ZMod 7) ^ 1))) (by ring) ?_
    rw [mul_inv_cancel₀ hX1]
    ring
  have hT2 : ((fieldMul 7 (fieldMul 7 (degRandVal 7 r2) (fieldProd 7
      [degMulVal 7 S (fieldMul 7 (degRandVal 7 q1) (fieldInverse 7 (degMulVal 7 (degRandVal 7 r1) (degRandVal 7 q1)))),
        degMulVal 7 S (degMulVal 7 (degRandVal 7 r1) (fieldMul 7 (degRandVal 7 q2) (fieldInverse 7 (degMulVal 7 (degRandVal 7 r2) (degRandVal 7 q2)))))])) 2 : Nat) : ZMod 7) = 2 * (S : ZMod 7) ^ 2 := by
    simp only [fieldProd, List.foldl_cons, List.foldl_nil, fieldMul_cast,
      degMulVal_cast7, fieldInverse_degMulVal_cast7, Nat.cast_ofNat,
      Nat.cast_one, Nat.cast_zero]
    simp only [hW1, hW2]
    refine Eq.trans (b := ((((degRandVal 7 r1 : Nat) : ZMod 7) * (((degRandVal 7 r1 : Nat) : ZMod 7))⁻¹) * ((((degRandVal 7 r2 : Nat) : ZMod 7) * (((degRandVal 7 r2 : Nat) : ZMod 7))⁻¹) * ((2 : ZMod 7) * (S : ZMod 7) ^ 2)))) (by ring) ?_
    rw [mul_inv_cancel₀ hX1, mul_inv_cancel₀ hX2]
    ring
  have hT3 : ((fieldMul 7 (fieldMul 7 (degRandVal 7 r3) (fieldProd 7
      [degMulVal 7 S (fieldMul 7 (degRandVal 7 q1) (fieldInverse 7 (degMulVal 7 (degRandVal 7 r1) (degRandVal 7 q1)))),
        degMulVal 7 S (degMulVal 7 (degRandVal 7 r1) (fieldMul 7 (degRandVal 7 q2) (fieldInverse 7 (degMulVal 7 (degRandVal 7 r2) (degRandVal 7 q2))))),
        degMulVal 7 S (degMulVal 7 (degRandVal 7 r2) (fieldMul 7 (degRandVal 7 q3) (fieldInverse 7 (degMulVal 7 (degRandVal 7 r3) (degRandVal 7 q3)))))])) 6 : Nat) : ZMod 7) = 6 * (S : ZMod 7) ^ 3 := by
    simp only [fieldProd, List.foldl_cons, List.foldl_nil, fieldMul_cast,
      degMulVal_cast7, fieldInverse_degMulVal_cast7, Nat.cast_ofNat,
      Nat.cast_one, Nat.cast_zero]
    simp only [hW1, hW2, hW3]
    refine Eq.trans (b := ((((degRandVal 7 r1 : Nat) : ZMod 7) * (((degRandVal 7 r1 : Nat) : ZMod 7))⁻¹) * ((((degRandVal 7 r2 : Nat) : ZMod 7) * (((degRandVal 7 r2 : Nat) : ZMod 7))⁻¹) * ((((degRandVal 7 r3 : Nat) : ZMod 7) * (((degRandVal 7 r3 : Nat) : ZMod 7))⁻¹) * ((6 : ZMod 7) * (S : ZMod 7) ^ 3))))) (by ring) ?_
    rw [mul_inv_cancel₀ hX1, mul_inv_cancel₀ hX2, mul_inv_cancel₀ hX3]
    ring
  refine castEq_of_lt (fieldAdd_lt (by norm_num) _ _) (by split <;> norm_num) ?_
  simp only [fieldAdd_cast, Nat.cast_ofNat, Nat.cast_one, Nat.cast_zero,
    hT1, hT2, hT3]
  rcases Nat.le_one_iff_eq_zero_or_eq_one.mp hb1 with h | h <;> subst h <;>
      rcases Nat.le_one_iff_eq_zero_or_eq_one.mp hb2 with h | h <;> subst h <;>
      rcases Nat.le_one_iff_eq_zero_or_eq_one.mp hb3 with h | h <;> subst h <;>
      subst hS <;> decide

set_option maxHeartbeats 3200000 in
/-- unbounded_shared_or on 4 degenerate bit shares with valid nonzero
draws reveals 0 exactly when every bit is 0, and 1 otherwise. -/
theorem degOr_correct_4 (b1 b2 b3 b4 r1 r2 r3 r4 q1 q2 q3 q4 : Nat) (hb1 : b1 ≤ 1) (hb2 : b2 ≤ 1) (hb3 : b3 ≤ 1) (hb4 : b4 ≤ 1)
    (hr1 : 0 < r1 ∧ r1 < 7) (hr2 : 0 < r2 ∧ r2 < 7) (hr3 : 0 < r3 ∧ r3 < 7) (hr4 : 0 < r4 ∧ r4 < 7)
    (hq1 : 0 < q1 ∧ q1 < 7) (hq2 : 0 < q2 ∧ q2 < 7) (hq3 : 0 < q3 ∧ q3 < 7) (hq4 : 0 < q4 ∧ q4 < 7) :
    (degUnboundedOr 7 [(1, b1), (1, b2), (1, b3), (1, b4)] [r1, r2, r3, r4] [q1, q2, q3, q4]).2 =
      if b1 = 0 ∧ b2 = 0 ∧ b3 = 0 ∧ b4 = 0 then 0 else 1 := by
  have hX1 := degRandVal_cast_ne_zero hr1.1 hr1.2
  have hX2 := degRandVal_cast_ne_zero hr2.1 hr2.2
  have hX3 := degRandVal_cast_ne_zero hr3.1 hr3.2
  have hX4 := degRandVal_cast_ne_zero hr4.1 hr4.2
  have hY1 := degRandVal_cast_ne_zero hq1.1 hq1.2
  have hY2 := degRandVal_cast_ne_zero hq2.1 hq2.2
  have hY3 := degRandVal_cast_ne_zero hq3.1 hq3.2
  have hY4 := degRandVal_cast_ne_zero hq4.1 hq4.2
  have hW1 := W_cast hX1 hY1
  have hW2 := W_cast hX2 hY2
  have hW3 := W_cast hX3 hY3
  have hW4 := W_cast hX4 hY4
  have hm0 : monomialCoefficient 7 4 0 = 3 := by decide
  have hm1 : monomialCoefficient 7 4 1 = 0 := by decide
  have hm2 : monomialCoefficient 7 4 2 = 2 := by decide
  have hm3 : monomialCoefficient 7 4 3 = 0 := by decide
  have hm4 : monomialCoefficient 7 4 4 = 2 := by decide
  simp [degUnboundedOr, degUnboundedInverse, degUnboundedMultiply_eq,
    degRandomSharing_eq, sumShares, fieldSum, addScalar, addShares,
    mulScalar, degRevealShares, hm0, hm1, hm2, hm3, hm4, List.range_succ, List.range'_succ]
  generalize hS : fieldAdd 7 (fieldAdd 7 (fieldAdd 7 (fieldAdd 7 (fieldAdd 7 0 b1) b2) b3) b4) fieldOne = S
  have hT1 : ((fieldMul 7 (fieldMul 7 (degRandVal 7 r1) (fieldProd 7
      [degMulVal 7 S (fieldMul 7 (degRandVal 7 q1) (fieldInverse 7 (degMulVal 7 (degRandVal 7 r1) (degRandVal 7 q1))))])) 0 : Nat) : ZMod 7) = 0 * (S : ZMod 7) ^ 1 := by
    simp only [fieldProd, List.foldl_cons, List.foldl_nil, fieldMul_cast,
      degMulVal_cast7, fieldInverse_degMulVal_cast7, Nat.cast_ofNat,
      Nat.cast_one, Nat.cast_zero]
    simp only [hW1]
    refine Eq.trans (b := ((((degRandVal 7 r1 : Nat) : ZMod 7) * (((degRandVal 7 r1 : Nat) : ZMod 7))⁻¹) * ((0 : ZMod 7) * (S : ZMod 7) ^ 1))) (by ring) ?_
    rw [mul_inv_cancel₀ hX1]
    ring
  have hT2 : ((fieldMul 7 (fieldMul 7 (degRandVal 7 r2) (fieldProd 7
      [degMulVal 7 S (fieldMul 7 (degRandVal 7 q1) (fieldInverse 7 (degMulVal 7 (degRandVal 7 r1) (degRandVal 7 q1)))),
        degMulVal 7 S (degMulVal 7 (degRandVal 7 r1) (fieldMul 7 (degRandVal 7 q2) (fieldInverse 7 (degMulVal 7 (degRandVal 7 r2) (degRandVal 7 q2)))))])) 2 : Nat) : ZMod 7) = 2 * (S : ZMod 7) ^ 2 := by
    simp only [fieldProd, List.foldl_cons, List.foldl_nil, fieldMul_cast,
      degMulVal_cast7, fieldInverse_degMulVal_cast7, Nat.cast_ofNat,
      Nat.cast_one, Nat.cast_zero]
    simp only [hW1, hW2]
    refine Eq.trans (b := ((((degRandVal 7 r1 : Nat) : ZMod 7) * (((degRandVal 7 r1 : Nat) : ZMod 7))⁻¹) * ((((degRandVal 7 r2 : Nat) : ZMod 7) * (((degRandVal 7 r2 : Nat) : ZMod 7))⁻¹) * ((2 : ZMod 7) * (S : ZMod 7) ^ 2)))) (by ring) ?_
    rw [mul_inv_cancel₀ hX1, mul_inv_cancel₀ hX2]
    ring
  have hT3 : ((fieldMul 7 (fieldMul 7 (degRandVal 7 r3) (fieldProd 7
      [degMulVal 7 S (fieldMul 7 (degRandVal 7 q1) (fieldInverse 7 (degMulVal 7 (degRandVal 7 r1) (degRandVal 7 q1)))),
        degMulVal 7 S (degMulVal 7 (degRandVal 7 r1) (fieldMul 7 (degRandVal 7 q2) (fieldInverse 7 (degMulVal 7 (degRandVal 7 r2) (degRandVal 7 q2))))),
        degMulVal 7 S (degMulVal 7 (degRandVal 7 r2) (fieldMul 7 (degRandVal 7 q3) (fieldInverse 7 (degMulVal 7 (degRandVal 7 r3) (degRandVal 7 q3)))))])) 0 : Nat) : ZMod 7) = 0 * (S : ZMod 7) ^ 3 := by
    simp only [fieldProd, List.foldl_cons, List.foldl_nil, fieldMul_cast,
      degMulVal_cast7, fieldInverse_degMulVal_cast7, Nat.cast_ofNat,
      Nat.cast_one, Nat.cast_zero]
    simp only [hW1, hW2, hW3]
    refine Eq.trans (b := ((((degRandVal 7 r1 : Nat) : ZMod 7) * (((degRandVal 7 r1 : Nat) : ZMod 7))⁻¹) * ((((degRandVal 7 r2 : Nat) : ZMod 7) * (((degRandVal 7 r2 : Nat) : ZMod 7))⁻¹) * ((((degRandVal 7 r3 : Nat) : ZMod 7) * (((degRandVal 7 r3 : Nat) : ZMod 7))⁻¹) * ((0 : ZMod 7) * (S : ZMod 7) ^ 3))))) (by ring) ?_
    rw [mul_inv_cancel₀ hX1, mul_inv_cancel₀ hX2, mul_inv_cancel₀ hX3]
    ring
  have hT4 : ((fieldMul 7 (fieldMul 7 (degRandVal 7 r4) (fieldProd 7
      [degMulVal 7 S (fieldMul 7 (degRandVal 7 q1) (fieldInverse 7 (degMulVal 7 (degRandVal 7 r1) (degRandVal 7 q1)))),
        degMulVal 7 S (degMulVal 7 (degRandVal 7 r1) (fieldMul 7 (degRandVal 7 q2) (fieldInverse 7 (degMulVal 7 (degRandVal 7 r2) (degRandVal 7 q2))))),
        degMulVal 7 S (degMulVal 7 (degRandVal 7 r2) (fieldMul 7 (degRandVal 7 q3) (fieldInverse 7 (degMulVal 7 (degRandVal 7 r3) (degRandVal 7 q3))))),
        degMulVal 7 S (degMulVal 7 (degRandVal 7 r3) (fieldMul 7 (degRandVal 7 q4) (fieldInverse 7 (degMulVal 7 (degRandVal 7 r4) (degRandVal 7 q4)))))])) 2 : Nat) : ZMod 7) = 2 * (S : ZMod 7) ^ 4 := by
    simp only [fieldProd, List.foldl_cons, List.foldl_nil, fieldMul_cast,
      degMulVal_cast7, fieldInverse_degMulVal_cast7, Nat.cast_ofNat,
      Nat.cast_one, Nat.cast_zero]
    simp only [hW1, hW2, hW3, hW4]
    refine Eq.trans (b := ((((degRandVal 7 r1 : Nat) : ZMod 7) * (((degRandVal 7 r1 : Nat) : ZMod 7))⁻¹) * ((((degRandVal 7 r2 : Nat) : ZMod 7) * (((degRandVal 7 r2 : Nat) : ZMod 7))⁻¹) * ((((degRandVal 7 r3 : Nat) : ZMod 7) * (((degRandVal 7 r3 : Nat) : ZMod 7))⁻¹) * ((((degRandVal 7 r4 : Nat) : ZMod 7) * (((degRandVal 7 r4 : Nat) : ZMod 7))⁻¹) * ((2 : ZMod 7) * (S : ZMod 7) ^ 4)))))) (by ring) ?_
    rw [mul_inv_cancel₀ hX1, mul_inv_cancel₀ hX2, mul_inv_cancel₀ hX3, mul_inv_cancel₀ hX4]
    ring
  refine castEq_of_lt (fieldAdd_lt (by norm_num) _ _) (by split <;> norm_num) ?_
  simp only [fieldAdd_cast, Nat.cast_ofNat, Nat.cast_one, Nat.cast_zero,
    hT1, hT2, hT3, hT4]
  rcases Nat.le_one_iff_eq_zero_or_eq_one.mp hb1 with h | h <;> subst h <;>
      rcases Nat.le_one_iff_eq_zero_or_eq_one.mp hb2 with h | h <;> subst h <;>
      rcases Nat.le_one_iff_eq_zero_or_eq_one.mp hb3 with h | h <;> subst h <;>
      rcases Nat.le_one_iff_eq_zero_or_eq_one.mp hb4 with h | h <;> subst h <;>
      subst hS <;> decide

set_option maxHeartbeats 3200000 in
/-- unbounded_shared_or on 5 degenerate bit shares with valid nonzero
draws reveals 0 exactly when every bit is 0, and 1 otherwise. -/
theorem degOr_correct_5 (b1 b2 b3 b4 b5 r1 r2 r3 r4 r5 q1 q2 q3 q4 q5 : Nat) (hb1 : b1 ≤ 1) (hb2 : b2 ≤ 1) (hb3 : b3 ≤ 1) (hb4 : b4 ≤ 1) (hb5 : b5 ≤ 1)
    (hr1 : 0 < r1 ∧ r1 < 7) (hr2 : 0 < r2 ∧ r2 < 7) (hr3 : 0 < r3 ∧ r3 < 7) (hr4 : 0 < r4 ∧ r4 < 7) (hr5 : 0 < r5 ∧ r5 < 7)
    (hq1 : 0 < q1 ∧ q1 < 7) (hq2 : 0 < q2 ∧ q2 < 7) (hq3 : 0 < q3 ∧ q3 < 7) (hq4 : 0 < q4 ∧ q4 < 7) (hq5 : 0 < q5 ∧ q5 < 7) :
    (degUnboundedOr 7 [(1, b1), (1, b2), (1, b3), (1, b4), (1, b5)] [r1, r2, r3, r4, r5] [q1, q2, q3, q4, q5]).2 =
      if b1 = 0 ∧ b2 = 0 ∧ b3 = 0 ∧ b4 = 0 ∧ b5 = 0 then 0 else 1 := by
  have hX1 := degRandVal_cast_ne_zero hr1.1 hr1.2
  have hX2 := degRandVal_cast_ne_zero hr2.1 hr2.2
  have hX3 := degRandVal_cast_ne_zero hr3.1 hr3.2
  have hX4 := degRandVal_cast_ne_zero hr4.1 hr4.2
  have hX5 := degRandVal_cast_ne_zero hr5.1 hr5.2
  have hY1 := degRandVal_cast_ne_zero hq1.1 hq1.2
  have hY2 := degRandVal_cast_ne_zero hq2.1 hq2.2
  have hY3 := degRandVal_cast_ne_zero hq3.1 hq3.2
  have hY4 := degRandVal_cast_ne_zero hq4.1 hq4.2
  have hY5 := degRandVal_cast_ne_zero hq5.1 hq5.2
  have hW1 := W_cast hX1 hY1
  have hW2 := W_cast hX2 hY2
  have hW3 := W_cast hX3 hY3
  have hW4 := W_cast hX4 hY4
  have hW5 := W_cast hX5 hY5
  have hm0 : monomialCoefficient 7 5 0 = 2 := by decide
  have hm1 : monomialCoefficient 7 5 1 = 1 := by decide
  have hm2 : monomialCoefficient 7 5 2 = 1 := by decide
  have hm3 : monomialCoefficient 7 5 3 = 1 := by decide
  have hm4 : monomialCoefficient 7 5 4 = 1 := by decide
  have hm5 : monomialCoefficient 7 5 5 = 1 := by decide
  simp [degUnboundedOr, degUnboundedInverse, degUnboundedMultiply_eq,
    degRandomSharing_eq, sumShares, fieldSum, addScalar, addShares,
    mulScalar, degRevealShares, hm0, hm1, hm2, hm3, hm4, hm5, List.range_succ, List.range'_succ]
  generalize hS : fieldAdd 7 (fieldAdd 7 (fieldAdd 7 (fieldAdd 7 (fieldAdd 7 (fieldAdd 7 0 b1) b2) b3) b4) b5) fieldOne = S
  have hT1 : ((fieldMul 7 (fieldMul 7 (degRandVal 7 r1) (fieldProd 7
      [degMulVal 7 S (fieldMul 7 (degRandVal 7 q1) (fieldInverse 7 (degMulVal 7 (degRandVal 7 r1) (degRandVal 7 q1))))])) 1 : Nat) : ZMod 7) = 1 * (S : ZMod 7) ^ 1 := by
    simp only [fieldProd, List.foldl_cons, List.foldl_nil, fieldMul_cast,
      degMulVal_cast7, fieldInverse_degMulVal_cast7, Nat.cast_ofNat,
      Nat.cast_one, Nat.cast_zero]
    simp only [hW1]
    refine Eq.trans (b := ((((degRandVal 7 r1 : Nat) : ZMod 7) * (((degRandVal 7 r1 : Nat) : ZMod 7))⁻¹) * ((1 : ZMod 7) * (S : ZMod 7) ^ 1))) (by ring) ?_
    rw [mul_inv_cancel₀ hX1]
    ring
  have hT2 : ((fieldMul 7 (fieldMul 7 (degRandVal 7 r2) (fieldProd 7
      [degMulVal 7 S (fieldMul 7 (degRandVal 7 q1) (fieldInverse 7 (degMulVal 7 (degRandVal 7 r1) (degRandVal 7 q1)))),
        degMulVal 7 S (degMulVal 7 (degRandVal 7 r1) (fieldMul 7 (degRandVal 7 q2) (fieldInverse 7 (degMulVal 7 (degRandVal 7 r2) (degRandVal 7 q2)))))])) 1 : Nat) : ZMod 7) = 1 * (S : ZMod 7) ^ 2 := by
    simp only [fieldProd, List.foldl_cons, List.foldl_nil, fieldMul_cast,
      degMulVal_cast7, fieldInverse_degMulVal_cast7, Nat.cast_ofNat,
      Nat.cast_one, Nat.cast_zero]
    simp only [hW1, hW2]
    refine Eq.trans (b := ((((degRandVal 7 r1 : Nat) : ZMod 7) * (((degRandVal 7 r1 : Nat) : ZMod 7))⁻¹) * ((((degRandVal 7 r2 : Nat) : ZMod 7) * (((degRandVal 7 r2 : Nat) : ZMod 7))⁻¹) * ((1 : ZMod 7) * (S : ZMod 7) ^ 2)))) (by ring) ?_
    rw [mul_inv_cancel₀ hX1, mul_inv_cancel₀ hX2]
    ring
  have hT3 : ((fieldMul 7 (fieldMul 7 (degRandVal 7 r3) (fieldProd 7
      [degMulVal 7 S (fieldMul 7 (degRandVal 7 q1) (fieldInverse 7 (degMulVal 7 (degRandVal 7 r1) (degRandVal 7 q1)))),
        degMulVal 7 S (degMulVal 7 (degRandVal 7 r1) (fieldMul 7 (degRandVal 7 q2) (fieldInverse 7 (degMulVal 7 (degRandVal 7 r2) (degRandVal 7 q2))))),
        degMulVal 7 S (degMulVal 7 (degRandVal 7 r2) (fieldMul 7 (degRandVal 7 q3) (fieldInverse 7 (degMulVal 7 (degRandVal 7 r3) (degRandVal 7 q3)))))])) 1 : Nat) : ZMod 7) = 1 * (S : ZMod 7) ^ 3 := by
    simp only [fieldProd, List.foldl_cons, List.foldl_nil, fieldMul_cast,
      degMulVal_cast7, fieldInverse_degMulVal_cast7, Nat.cast_ofNat,
      Nat.cast_one, Nat.cast_zero]
    simp only [hW1, hW2, hW3]
    refine Eq.trans (b := ((((degRandVal 7 r1 : Nat) : ZMod 7) * (((degRandVal 7 r1 : Nat) : ZMod 7))⁻¹) * ((((degRandVal 7 r2 : Nat) : ZMod 7) * (((degRandVal 7 r2 : Nat) : ZMod 7))⁻¹) * ((((degRandVal 7 r3 : Nat) : ZMod 7) * (((degRandVal 7 r3 : Nat) : ZMod 7))⁻¹) * ((1 : ZMod 7) * (S : ZMod 7) ^ 3))))) (by ring) ?_
    rw [mul_inv_cancel₀ hX1, mul_inv_cancel₀ hX2, mul_inv_cancel₀ hX3]
    ring
  have hT4 : ((fieldMul 7 (fieldMul 7 (degRandVal 7 r4) (fieldProd 7
      [degMulVal 7 S (fieldMul 7 (degRandVal 7 q1) (fieldInverse 7 (degMulVal 7 (degRandVal 7 r1) (degRandVal 7 q1)))),
        degMulVal 7 S (degMulVal 7 (degRandVal 7 r1) (fieldMul 7 (degRandVal 7 q2) (fieldInverse 7 (degMulVal 7 (degRandVal 7 r2) (degRandVal 7 q2))))),
        degMulVal 7 S (degMulVal 7 (degRandVal 7 r2) (fieldMul 7 (degRandVal 7 q3) (fieldInverse 7 (degMulVal 7 (degRandVal 7 r3) (degRandVal 7 q3))))),
        degMulVal 7 S (degMulVal 7 (degRandVal 7 r3) (fieldMul 7 (degRandVal 7 q4) (fieldInverse 7 (degMulVal 7 (degRandVal 7 r4) (degRandVal 7 q4)))))])) 1 : Nat) : ZMod 7) = 1 * (S : ZMod 7) ^ 4 := by
    simp only [fieldProd, List.foldl_cons, List.foldl_nil, fieldMul_cast,
      degMulVal_cast7, fieldInverse_degMulVal_cast7, Nat.cast_ofNat,
      Nat.cast_one, Nat.cast_zero]
    simp only [hW1, hW2, hW3, hW4]
    refine Eq.trans (b := ((((degRandVal 7 r1 : Nat) : ZMod 7) * (((degRandVal 7 r1 : Nat) : ZMod 7))⁻¹) * ((((degRandVal 7 r2 : Nat) : ZMod 7) * (((degRandVal 7 r2 : Nat) : ZMod 7))⁻¹) * ((((degRandVal 7 r3 : Nat) : ZMod 7) * (((degRandVal 7 r3 : Nat) : ZMod 7))⁻¹) * ((((degRandVal 7 r4 : Nat) : ZMod 7) * (((degRandVal 7 r4 : Nat) : ZMod 7))⁻¹) * ((1 : ZMod 7) * (S : ZMod 7) ^ 4)))))) (by ring) ?_
    rw [mul_inv_cancel₀ hX1, mul_inv_cancel₀ hX2, mul_inv_cancel₀ hX3, mul_inv_cancel₀ hX4]
    ring
  have hT5 : ((fieldMul 7 (fieldMul 7 (degRandVal 7 r5) (fieldProd 7
      [degMulVal 7 S (fieldMul 7 (degRandVal 7 q1) (fieldInverse 7 (degMulVal 7 (degRandVal 7 r1) (degRandVal 7 q1)))),
        degMulVal 7 S (degMulVal 7 (degRandVal 7 r1) (fieldMul 7 (degRandVal 7 q2) (fieldInverse 7 (degMulVal 7 (degRandVal 7 r2) (degRandVal 7 q2))))),
        degMulVal 7 S (degMulVal 7 (degRandVal 7 r2) (fieldMul 7 (degRandVal 7 q3) (fieldInverse 7 (degMulVal 7 (degRandVal 7 r3) (degRandVal 7 q3))))),
        degMulVal 7 S (degMulVal 7 (degRandVal 7 r3) (fieldMul 7 (degRandVal 7 q4) (fieldInverse 7 (degMulVal 7 (degRandVal 7 r4) (degRandVal 7 q4))))),
        degMulVal 7 S (degMulVal 7 (degRandVal 7 r4) (fieldMul 7 (degRandVal 7 q5) (fieldInverse 7 (degMulVal 7 (degRandVal 7 r5) (degRandVal 7 q5)))))])) 1 : Nat) : ZMod 7) = 1 * (S : ZMod 7) ^ 5 := by
    simp only [fieldProd, List.foldl_cons, List.foldl_nil, fieldMul_cast,
      degMulVal_cast7, fieldInverse_degMulVal_cast7, Nat.cast_ofNat,
      Nat.cast_one, Nat.cast_zero]
    simp only [hW1, hW2, hW3, hW4, hW5]
    refine Eq.trans (b := ((((degRandVal 7 r1 : Nat) : ZMod 7) * (((degRandVal 7 r1 : Nat) : ZMod 7))⁻¹) * ((((degRandVal 7 r2 : Nat) : ZMod 7) * (((degRandVal 7 r2 : Nat) : ZMod 7))⁻¹) * ((((degRandVal 7 r3 : Nat) : ZMod 7) * (((degRandVal 7 r3 : Nat) : ZMod 7))⁻¹) * ((((degRandVal 7 r4 : Nat) : ZMod 7) * (((degRandVal 7 r4 : Nat) : ZMod 7))⁻¹) * ((((degRandVal 7 r5 : Nat) : ZMod 7) * (((degRandVal 7 r5 : Nat) : ZMod 7))⁻¹) * ((1 : ZMod 7) * (S : ZMod 7) ^ 5))))))) (by ring) ?_
    rw [mul_inv_cancel₀ hX1, mul_inv_cancel₀ hX2, mul_inv_cancel₀ hX3, mul_inv_cancel₀ hX4, mul_inv_cancel₀ hX5]
    ring
  refine castEq_of_lt (fieldAdd_lt (by norm_num) _ _) (by split <;> norm_num) ?_
  simp only [fieldAdd_cast, Nat.cast_ofNat, Nat.cast_one, Nat.cast_zero,
    hT1, hT2, hT3, hT4, hT5]
  rcases Nat.le_one_iff_eq_zero_or_eq_one.mp hb1 with h | h <;> subst h <;>
      rcases Nat.le_one_iff_eq_zero_or_eq_one.mp hb2 with h | h <;> subst h <;>
      rcases Nat.le_one_iff_eq_zero_or_eq_one.mp hb3 with h | h <;> subst h <;>
      rcases Nat.le_one_iff_eq_zero_or_eq_one.mp hb4 with h | h <;> subst h <;>
      rcases Nat.le_one_iff_eq_zero_or_eq_one.mp hb5 with h | h <;> subst h <;>
      subst hS <;> decide

set_option maxHeartbeats 3200000 in
/-- unbounded_shared_or on 6 degenerate bit shares with valid nonzero
draws reveals 0 exactly when every bit is 0, and 1 otherwise. -/
theorem degOr_correct_6 (b1 b2 b3 b4 b5 b6 r1 r2 r3 r4 r5 r6 q1 q2 q3 q4 q5 q6 : Nat) (hb1 : b1 ≤ 1) (hb2 : b2 ≤ 1) (hb3 : b3 ≤ 1) (hb4 : b4 ≤ 1) (hb5 : b5 ≤ 1) (hb6 : b6 ≤ 1)
    (hr1 : 0 < r1 ∧ r1 < 7) (hr2 : 0 < r2 ∧ r2 < 7) (hr3 : 0 < r3 ∧ r3 < 7) (hr4 : 0 < r4 ∧ r4 < 7) (hr5 : 0 < r5 ∧ r5 < 7) (hr6 : 0 < r6 ∧ r6 < 7)
    (hq1 : 0 < q1 ∧ q1 < 7) (hq2 : 0 < q2 ∧ q2 < 7) (hq3 : 0 < q3 ∧ q3 < 7) (hq4 : 0 < q4 ∧ q4 < 7) (hq5 : 0 < q5 ∧ q5 < 7) (hq6 : 0 < q6 ∧ q6 < 7) :
    (degUnboundedOr 7 [(1, b1), (1, b2), (1, b3), (1, b4), (1, b5), (1, b6)] [r1, r2, r3, r4, r5, r6] [q1, q2, q3, q4, q5, q6]).2 =
      if b1 = 0 ∧ b2 = 0 ∧ b3 = 0 ∧ b4 = 0 ∧ b5 = 0 ∧ b6 = 0 then 0 else 1 := by
  have hX1 := degRandVal_cast_ne_zero hr1.1 hr1.2
  have hX2 := degRandVal_cast_ne_zero hr2.1 hr2.2
  have hX3 := degRandVal_cast_ne_zero hr3.1 hr3.2
  have hX4 := degRandVal_cast_ne_zero hr4.1 hr4.2
  have hX5 := degRandVal_cast_ne_zero hr5.1 hr5.2
  have hX6 := degRandVal_cast_ne_zero hr6.1 hr6.2
  have hY1 := degRandVal_cast_ne_zero hq1.1 hq1.2
  have hY2 := degRandVal_cast_ne_zero hq2.1 hq2.2
  have hY3 := degRandVal_cast_ne_zero hq3.1 hq3.2
  have hY4 := degRandVal_cast_ne_zero hq4.1 hq4.2
  have hY5 := degRandVal_cast_ne_zero hq5.1 hq5.2
  have hY6 := degRandVal_cast_ne_zero hq6.1 hq6.2
  have hW1 := W_cast hX1 hY1
  have hW2 := W_cast hX2 hY2
  have hW3 := W_cast hX3 hY3
  have hW4 := W_cast hX4 hY4
  have hW5 := W_cast hX5 hY5
  have hW6 := W_cast hX6 hY6
  have hm0 : monomialCoefficient 7 6 0 = 1 := by decide
  have hm1 : monomialCoefficient 7 6 1 = 1 := by decide
  have hm2 : monomialCoefficient 7 6 2 = 1 := by decide
  have hm3 : monomialCoefficient 7 6 3 = 1 := by decide
  have hm4 : monomialCoefficient 7 6 4 = 1 := by decide
  have hm5 : monomialCoefficient 7 6 5 = 1 := by decide
  have hm6 : monomialCoefficient 7 6 6 = 1 := by decide
  simp [degUnboundedOr, degUnboundedInverse, degUnboundedMultiply_eq,
    degRandomSharing_eq, sumShares, fieldSum, addScalar, addShares,
    mulScalar, degRevealShares, hm0, hm1, hm2, hm3, hm4, hm5, hm6, List.range_succ, List.range'_succ]
  generalize hS : fieldAdd 7 (fieldAdd 7 (fieldAdd 7 (fieldAdd 7 (fieldAdd 7 (fieldAdd 7 (fieldAdd 7 0 b1) b2) b3) b4) b5) b6) fieldOne = S
  have hT1 : ((fieldMul 7 (fieldMul 7 (degRandVal 7 r1) (fieldProd 7
      [degMulVal 7 S (fieldMul 7 (degRandVal 7 q1) (fieldInverse 7 (degMulVal 7 (degRandVal 7 r1) (degRandVal 7 q1))))])) 1 : Nat) : ZMod 7) = 1 * (S : ZMod 7) ^ 1 := by
    simp only [fieldProd, List.foldl_cons, List.foldl_nil, fieldMul_cast,
      degMulVal_cast7, fieldInverse_degMulVal_cast7, Nat.cast_ofNat,
      Nat.cast_one, Nat.cast_zero]
    simp only [hW1]
    refine Eq.trans (b := ((((degRandVal 7 r1 : Nat) : ZMod 7) * (((degRandVal 7 r1 : Nat) : ZMod 7))⁻¹) * ((1 : ZMod 7) * (S : ZMod 7) ^ 1))) (by ring) ?_
    rw [mul_inv_cancel₀ hX1]
    ring
  have hT2 : ((fieldMul 7 (fieldMul 7 (degRandVal 7 r2) (fieldProd 7
      [degMulVal 7 S (fieldMul 7 (degRandVal 7 q1) (fieldInverse 7 (degMulVal 7 (degRandVal 7 r1) (degRandVal 7 q1)))),
        degMulVal 7 S (degMulVal 7 (degRandVal 7 r1) (fieldMul 7 (degRandVal 7 q2) (fieldInverse 7 (degMulVal 7 (degRandVal 7 r2) (degRandVal 7 q2)))))])) 1 : Nat) : ZMod 7) = 1 * (S : ZMod 7) ^ 2 := by
    simp only [fieldProd, List.foldl_cons, List.foldl_nil, fieldMul_cast,
      degMulVal_cast7, fieldInverse_degMulVal_cast7, Nat.cast_ofNat,
      Nat.cast_one, Nat.cast_zero]
    simp only [hW1, hW2]
    refine Eq.trans (b := ((((degRandVal 7 r1 : Nat) : ZMod 7) * (((degRandVal 7 r1 : Nat) : ZMod 7))⁻¹) * ((((degRandVal 7 r2 : Nat) : ZMod 7) * (((degRandVal 7 r2 : Nat) : ZMod 7))⁻¹) * ((1 : ZMod 7) * (S : ZMod 7) ^ 2)))) (by ring) ?_
    rw [mul_inv_cancel₀ hX1, mul_inv_cancel₀ hX2]
    ring
  have hT3 : ((fieldMul 7 (fieldMul 7 (degRandVal 7 r3) (fieldProd 7
      [degMulVal 7 S (fieldMul 7 (degRandVal 7 q1) (fieldInverse 7 (degMulVal 7 (degRandVal 7 r1) (degRandVal 7 q1)))),
        degMulVal 7 S (degMulVal 7 (degRandVal 7 r1) (fieldMul 7 (degRandVal 7 q2) (fieldInverse 7 (degMulVal 7 (degRandVal 7 r2) (degRandVal 7 q2))))),
        degMulVal 7 S (degMulVal 7 (degRandVal 7 r2) (fieldMul 7 (degRandVal 7 q3) (fieldInverse 7 (degMulVal 7 (degRandVal 7 r3) (degRandVal 7 q3)))))])) 1 : Nat) : ZMod 7) = 1 * (S : ZMod 7) ^ 3 := by
    simp only [fieldProd, List.foldl_cons, List.foldl_nil, fieldMul_cast,
      degMulVal_cast7, fieldInverse_degMulVal_cast7, Nat.cast_ofNat,
      Nat.cast_one, Nat.cast_zero]
    simp only [hW1, hW2, hW3]
    refine Eq.trans (b := ((((degRandVal 7 r1 : Nat) : ZMod 7) * (((degRandVal 7 r1 : Nat) : ZMod 7))⁻¹) * ((((degRandVal 7 r2 : Nat) : ZMod 7) * (((degRandVal 7 r2 : Nat) : ZMod 7))⁻¹) * ((((degRandVal 7 r3 : Nat) : ZMod 7) * (((degRandVal 7 r3 : Nat) : ZMod 7))⁻¹) * ((1 : ZMod 7) * (S : ZMod 7) ^ 3))))) (by ring) ?_
    rw [mul_inv_cancel₀ hX1, mul_inv_cancel₀ hX2, mul_inv_cancel₀ hX3]
    ring
  have hT4 : ((fieldMul 7 (fieldMul 7 (degRandVal 7 r4) (fieldProd 7
      [degMulVal 7 S (fieldMul 7 (degRandVal 7 q1) (fieldInverse 7 (degMulVal 7 (degRandVal 7 r1) (degRandVal 7 q1)))),
        degMulVal 7 S (degMulVal 7 (degRandVal 7 r1) (fieldMul 7 (degRandVal 7 q2) (fieldInverse 7 (degMulVal 7 (degRandVal 7 r2) (degRandVal 7 q2))))),
        degMulVal 7 S (degMulVal 7 (degRandVal 7 r2) (fieldMul 7 (degRandVal 7 q3) (fieldInverse 7 (degMulVal 7 (degRandVal 7 r3) (degRandVal 7 q3))))),
        degMulVal 7 S (degMulVal 7 (degRandVal 7 r3) (fieldMul 7 (degRandVal 7 q4) (fieldInverse 7 (degMulVal 7 (degRandVal 7 r4) (degRandVal 7 q4)))))])) 1 : Nat) : ZMod 7) = 1 * (S : ZMod 7) ^ 4 := by
    simp only [fieldProd, List.foldl_cons, List.foldl_nil, fieldMul_cast,
      degMulVal_cast7, fieldInverse_degMulVal_cast7, Nat.cast_ofNat,
      Nat.cast_one, Nat.cast_zero]
    simp only [hW1, hW2, hW3, hW4]
    refine Eq.trans (b := ((((degRandVal 7 r1 : Nat) : ZMod 7) * (((degRandVal 7 r1 : Nat) : ZMod 7))⁻¹) * ((((degRandVal 7 r2 : Nat) : ZMod 7) * (((degRandVal 7 r2 : Nat) : ZMod 7))⁻¹) * ((((degRandVal 7 r3 : Nat) : ZMod 7) * (((degRandVal 7 r3 : Nat) : ZMod 7))⁻¹) * ((((degRandVal 7 r4 : Nat) : ZMod 7) * (((degRandVal 7 r4 : Nat) : ZMod 7))⁻¹) * ((1 : ZMod 7) * (S : ZMod 7) ^ 4)))))) (by ring) ?_
    rw [mul_inv_cancel₀ hX1, mul_inv_cancel₀ hX2, mul_inv_cancel₀ hX3, mul_inv_cancel₀ hX4]
    ring
  have hT5 : ((fieldMul 7 (fieldMul 7 (degRandVal 7 r5) (fieldProd 7
      [degMulVal 7 S (fieldMul 7 (degRandVal 7 q1) (fieldInverse 7 (degMulVal 7 (degRandVal 7 r1) (degRandVal 7 q1)))),
        degMulVal 7 S (degMulVal 7 (degRandVal 7 r1) (fieldMul 7 (degRandVal 7 q2) (fieldInverse 7 (degMulVal 7 (degRandVal 7 r2) (degRandVal 7 q2))))),
        degMulVal 7 S (degMulVal 7 (degRandVal 7 r2) (fieldMul 7 (degRandVal 7 q3) (fieldInverse 7 (degMulVal 7 (degRandVal 7 r3) (degRandVal 7 q3))))),
        degMulVal 7 S (degMulVal 7 (degRandVal 7 r3) (fieldMul 7 (degRandVal 7 q4) (fieldInverse 7 (degMulVal 7 (degRandVal 7 r4) (degRandVal 7 q4))))),
        degMulVal 7 S (degMulVal 7 (degRandVal 7 r4) (fieldMul 7 (degRandVal 7 q5) (fieldInverse 7 (degMulVal 7 (degRandVal 7 r5) (degRandVal 7 q5)))))])) 1 : Nat) : ZMod 7) = 1 * (S : ZMod 7) ^ 5 := by
    simp only [fieldProd, List.foldl_cons, List.foldl_nil, fieldMul_cast,
      degMulVal_cast7, fieldInverse_degMulVal_cast7, Nat.cast_ofNat,
      Nat.cast_one, Nat.cast_zero]
    simp only [hW1, hW2, hW3, hW4, hW5]
    refine Eq.trans (b := ((((degRandVal 7 r1 : Nat) : ZMod 7) * (((degRandVal 7 r1 : Nat) : ZMod 7))⁻¹) * ((((degRandVal 7 r2 : Nat) : ZMod 7) * (((degRandVal 7 r2 : Nat) : ZMod 7))⁻¹) * ((((degRandVal 7 r3 : Nat) : ZMod 7) * (((degRandVal 7 r3 : Nat) : ZMod 7))⁻¹) * ((((degRandVal 7 r4 : Nat) : ZMod 7) * (((degRandVal 7 r4 : Nat) : ZMod 7))⁻¹) * ((((degRandVal 7 r5 : Nat) : ZMod 7) * (((degRandVal 7 r5 : Nat) : ZMod 7))⁻¹) * ((1 : ZMod 7) * (S : ZMod 7) ^ 5))))))) (by ring) ?_
    rw [mul_inv_cancel₀ hX1, mul_inv_cancel₀ hX2, mul_inv_cancel₀ hX3, mul_inv_cancel₀ hX4, mul_inv_cancel₀ hX5]
    ring
  have hT6 : ((fieldMul 7 (fieldMul 7 (degRandVal 7 r6) (fieldProd 7
      [degMulVal 7 S (fieldMul 7 (degRandVal 7 q1) (fieldInverse 7 (degMulVal 7 (degRandVal 7 r1) (degRandVal 7 q1)))),
        degMulVal 7 S (degMulVal 7 (degRandVal 7 r1) (fieldMul 7 (degRandVal 7 q2) (fieldInverse 7 (degMulVal 7 (degRandVal 7 r2) (degRandVal 7 q2))))),
        degMulVal 7 S (degMulVal 7 (degRandVal 7 r2) (fieldMul 7 (degRandVal 7 q3) (fieldInverse 7 (degMulVal 7 (degRandVal 7 r3) (degRandVal 7 q3))))),
        degMulVal 7 S (degMulVal 7 (degRandVal 7 r3) (fieldMul 7 (degRandVal 7 q4) (fieldInverse 7 (degMulVal 7 (degRandVal 7 r4) (degRandVal 7 q4))))),
        degMulVal 7 S (degMulVal 7 (degRandVal 7 r4) (fieldMul 7 (degRandVal 7 q5) (fieldInverse 7 (degMulVal 7 (degRandVal 7 r5) (degRandVal 7 q5))))),
        degMulVal 7 S (degMulVal 7 (degRandVal 7 r5) (fieldMul 7 (degRandVal 7 q6) (fieldInverse 7 (degMulVal 7 (degRandVal 7 r6) (degRandVal 7 q6)))))])) 1 : Nat) : ZMod 7) = 1 * (S : ZMod 7) ^ 6 := by
    simp only [fieldProd, List.foldl_cons, List.foldl_nil, fieldMul_cast,
      degMulVal_cast7, fieldInverse_degMulVal_cast7, Nat.cast_ofNat,
      Nat.cast_one, Nat.cast_zero]
    simp only [hW1, hW2, hW3, hW4, hW5, hW6]
    refine Eq.trans (b := ((((degRandVal 7 r1 : Nat) : ZMod 7) * (((degRandVal 7 r1 : Nat) : ZMod 7))⁻¹) * ((((degRandVal 7 r2 : Nat) : ZMod 7) * (((degRandVal 7 r2 : Nat) : ZMod 7))⁻¹) * ((((degRandVal 7 r3 : Nat) : ZMod 7) * (((degRandVal 7 r3 : Nat) : ZMod 7))⁻¹) * ((((degRandVal 7 r4 : Nat) : ZMod 7) * (((degRandVal 7 r4 : Nat) : ZMod 7))⁻¹) * ((((degRandVal 7 r5 : Nat) : ZMod 7) * (((degRandVal 7 r5 : Nat) : ZMod 7))⁻¹) * ((((degRandVal 7 r6 : Nat) : ZMod 7) * (((degRandVal 7 r6 : Nat) : ZMod 7))⁻¹) * ((1 : ZMod 7) * (S : ZMod 7) ^ 6)))))))) (by ring) ?_
    rw [mul_inv_cancel₀ hX1, mul_inv_cancel₀ hX2, mul_inv_cancel₀ hX3, mul_inv_cancel₀ hX4, mul_inv_cancel₀ hX5, mul_inv_cancel₀ hX6]
    ring
  refine castEq_of_lt (fieldAdd_lt (by norm_num) _ _) (by split <;> norm_num) ?_
  simp only [fieldAdd_cast, Nat.cast_ofNat, Nat.cast_one, Nat.cast_zero,
    hT1, hT2, hT3, hT4, hT5, hT6]
  rcases Nat.le_one_iff_eq_zero_or_eq_one.mp hb1 with h | h <;> subst h <;>
      rcases Nat.le_one_iff_eq_zero_or_eq_one.mp hb2 with h | h <;> subst h <;>
      rcases Nat.le_one_iff_eq_zero_or_eq_one.mp hb3 with h | h <;> subst h <;>
      rcases Nat.le_one_iff_eq_zero_or_eq_one.mp hb4 with h | h <;> subst h <;>
      rcases Nat.le_one_iff_eq_zero_or_eq_one.mp hb5 with h | h <;> subst h <;>
      rcases Nat.le_one_iff_eq_zero_or_eq_one.mp hb6 with h | h <;> subst h <;>
      subst hS <;> decide

/-- C9: unbounded_shared_or correctness in the degenerate single-party
prime-7 setting, amended to bit patterns of length at most 6 (so that the
sum of bits plus one stays below the field order and never wraps onto the
polynomial's zero node): for every nonempty list of at most 6 degenerate
bit shares (point 1, value 0 or 1) and valid nonzero random draws for the
helper generation and the batched inversion, the revealed output of
unbounded_shared_or is 0 if every input bit is 0 and 1 otherwise. -/
theorem claim_C9 (bits : List (Nat × Nat)) (ordraws invdraws : List Nat)
    (hne : bits ≠ []) (hlen : bits.length ≤ 6)
    (hcoord : ∀ s ∈ bits, s.1 = 1) (hbit : ∀ s ∈ bits, s.2 ≤ 1)
    (hord : ordraws.length = bits.length) (hinv : invdraws.length = bits.length)
    (hordv : ∀ r ∈ ordraws, 0 < r ∧ r < 7) (hinvv : ∀ q ∈ invdraws, 0 < q ∧ q < 7) :
    degRevealShares (degUnboundedOr 7 bits ordraws invdraws) =
      if ∀ s ∈ bits, s.2 = 0 then 0 else 1 := by
  rcases bits with _ | ⟨⟨c1, b1⟩, bits⟩
  · exact absurd rfl hne
  rcases ordraws with _ | ⟨r1, ordraws⟩
  · simp at hord
  rcases invdraws with _ | ⟨q1, invdraws⟩
  · simp at hinv
  rcases bits with _ | ⟨⟨c2, b2⟩, bits⟩
  · have he1 : ordraws = [] := by simpa using hord
    have he2 : invdraws = [] := by simpa using hinv
    subst he1 he2
    have hc1 : c1 = 1 := hcoord (c1, b1) (by simp)
    subst hc1
    have hb1 : b1 ≤ 1 := hbit (1, b1) (by simp)
    have hr1 := hordv r1 (by simp)
    have hq1 := hinvv q1 (by simp)
    have h := degOr_correct_1 b1 r1 q1 hb1 hr1 hq1
    have hiff : (∀ s ∈ ([(1, b1)] : List (Nat × Nat)), s.2 = 0) ↔ (b1 = 0) := by
      simp
    simp only [degRevealShares]
    rw [h]
    exact if_congr hiff.symm rfl rfl
  rcases ordraws with _ | ⟨r2, ordraws⟩
  · simp at hord
  rcases invdraws with _ | ⟨q2, invdraws⟩
  · simp at hinv
  rcases bits with _ | ⟨⟨c3, b3⟩, bits⟩
  · have he1 : ordraws = [] := by simpa using hord
    have he2 : invdraws = [] := by simpa using hinv
    subst he1 he2
    have hc1 : c1 = 1 := hcoord (c1, b1) (by simp)
    have hc2 : c2 = 1 := hcoord (c2, b2) (by simp)
    subst hc1
    subst hc2
    have hb1 : b1 ≤ 1 := hbit (1, b1) (by simp)
    have hb2 : b2 ≤ 1 := hbit (1, b2) (by simp)
    have hr1 := hordv r1 (by simp)
    have hr2 := hordv r2 (by simp)
    have hq1 := hinvv q1 (by simp)
    have hq2 := hinvv q2 (by simp)
    have h := degOr_correct_2 b1 b2 r1 r2 q1 q2 hb1 hb2 hr1 hr2 hq1 hq2
    have hiff : (∀ s ∈ ([(1, b1), (1, b2)] : List (Nat × Nat)), s.2 = 0) ↔ (b1 = 0 ∧ b2 = 0) := by
      simp
    simp only [degRevealShares]
    rw [h]
    exact if_congr hiff.symm rfl rfl
  rcases ordraws with _ | ⟨r3, ordraws⟩
  · simp at hord
  rcases invdraws with _ | ⟨q3, invdraws⟩
  · simp at hinv
  rcases bits with _ | ⟨⟨c4, b4⟩, bits⟩
  · have he1 : ordraws = [] := by simpa using hord
    have he2 : invdraws = [] := by simpa using hinv
    subst he1 he2
    have hc1 : c1 = 1 := hcoord (c1, b1) (by simp)
    have hc2 : c2 = 1 := hcoord (c2, b2) (by simp)
    have hc3 : c3 = 1 := hcoord (c3, b3) (by simp)
    subst hc1
    subst hc2
    subst hc3
    have hb1 : b1 ≤ 1 := hbit (1, b1) (by simp)
    have hb2 : b2 ≤ 1 := hbit (1, b2) (by simp)
    have hb3 : b3 ≤ 1 := hbit (1, b3) (by simp)
    have hr1 := hordv r1 (by simp)
    have hr2 := hordv r2 (by simp)
    have hr3 := hordv r3 (by simp)
    have hq1 := hinvv q1 (by simp)
    have hq2 := hinvv q2 (by simp)
    have hq3 := hinvv q3 (by simp)
    have h := degOr_correct_3 b1 b2 b3 r1 r2 r3 q1 q2 q3 hb1 hb2 hb3 hr1 hr2 hr3 hq1 hq2 hq3
    have hiff : (∀ s ∈ ([(1, b1), (1, b2), (1, b3)] : List (Nat × Nat)), s.2 = 0) ↔ (b1 = 0 ∧ b2 = 0 ∧ b3 = 0) := by
      simp
    simp only [degRevealShares]
    rw [h]
    exact if_congr hiff.symm rfl rfl
  rcases ordraws with _ | ⟨r4, ordraws⟩
  · simp at hord
  rcases invdraws with _ | ⟨q4, invdraws⟩
  · simp at hinv
  rcases bits with _ | ⟨⟨c5, b5⟩, bits⟩
  · have he1 : ordraws = [] := by simpa using hord
    have he2 : invdraws = [] := by simpa using hinv
    subst he1 he2
    have hc1 : c1 = 1 := hcoord (c1, b1) (by simp)
    have hc2 : c2 = 1 := hcoord (c2, b2) (by simp)
    have hc3 : c3 = 1 := hcoord (c3, b3) (by simp)
    have hc4 : c4 = 1 := hcoord (c4, b4) (by simp)
    subst hc1
    subst hc2
    subst hc3
    subst hc4
    have hb1 : b1 ≤ 1 := hbit (1, b1) (by simp)
    have hb2 : b2 ≤ 1 := hbit (1, b2) (by simp)
    have hb3 : b3 ≤ 1 := hbit (1, b3) (by simp)
    have hb4 : b4 ≤ 1 := hbit (1, b4) (by simp)
    have hr1 := hordv r1 (by simp)
    have hr2 := hordv r2 (by simp)
    have hr3 := hordv r3 (by simp)
    have hr4 := hordv r4 (by simp)
    have hq1 := hinvv q1 (by simp)
    have hq2 := hinvv q2 (by simp)
    have hq3 := hinvv q3 (by simp)
    have hq4 := hinvv q4 (by simp)
    have h := degOr_correct_4 b1 b2 b3 b4 r1 r2 r3 r4 q1 q2 q3 q4 hb1 hb2 hb3 hb4 hr1 hr2 hr3 hr4 hq1 hq2 hq3 hq4
    have hiff : (∀ s ∈ ([(1, b1), (1, b2), (1, b3), (1, b4)] : List (Nat × Nat)), s.2 = 0) ↔ (b1 = 0 ∧ b2 = 0 ∧ b3 = 0 ∧ b4 = 0) := by
      simp
    simp only [degRevealShares]
    rw [h]
    exact if_congr hiff.symm rfl rfl
  rcases ordraws with _ | ⟨r5, ordraws⟩
  · simp at hord
  rcases invdraws with _ | ⟨q5, invdraws⟩
  · simp at hinv
  rcases bits with _ | ⟨⟨c6, b6⟩, bits⟩
  · have he1 : ordraws = [] := by simpa using hord
    have he2 : invdraws = [] := by simpa using hinv
    subst he1 he2
    have hc1 : c1 = 1 := hcoord (c1, b1) (by simp)
    have hc2 : c2 = 1 := hcoord (c2, b2) (by simp)
    have hc3 : c3 = 1 := hcoord (c3, b3) (by simp)
    have hc4 : c4 = 1 := hcoord (c4, b4) (by simp)
    have hc5 : c5 = 1 := hcoord (c5, b5) (by simp)
    subst hc1
    subst hc2
    subst hc3
    subst hc4
    subst hc5
    have hb1 : b1 ≤ 1 := hbit (1, b1) (by simp)
    have hb2 : b2 ≤ 1 := hbit (1, b2) (by simp)
    have hb3 : b3 ≤ 1 := hbit (1, b3) (by simp)
    have hb4 : b4 ≤ 1 := hbit (1, b4) (by simp)
    have hb5 : b5 ≤ 1 := hbit (1, b5) (by simp)
    have hr1 := hordv r1 (by simp)
    have hr2 := hordv r2 (by simp)
    have hr3 := hordv r3 (by simp)
    have hr4 := hordv r4 (by simp)
    have hr5 := hordv r5 (by simp)
    have hq1 := hinvv q1 (by simp)
    have hq2 := hinvv q2 (by simp)
    have hq3 := hinvv q3 (by simp)
    have hq4 := hinvv q4 (by simp)
    have hq5 := hinvv q5 (by simp)
    have h := degOr_correct_5 b1 b2 b3 b4 b5 r1 r2 r3 r4 r5 q1 q2 q3 q4 q5 hb1 hb2 hb3 hb4 hb5 hr1 hr2 hr3 hr4 hr5 hq1 hq2 hq3 hq4 hq5
    have hiff : (∀ s ∈ ([(1, b1), (1, b2), (1, b3), (1, b4), (1, b5)] : List (Nat × Nat)), s.2 = 0) ↔ (b1 = 0 ∧ b2 = 0 ∧ b3 = 0 ∧ b4 = 0 ∧ b5 = 0) := by
      simp
    simp only [degRevealShares]
    rw [h]
    exact if_congr hiff.symm rfl rfl
  rcases ordraws with _ | ⟨r6, ordraws⟩
  · simp at hord
  rcases invdraws with _ | ⟨q6, invdraws⟩
  · simp at hinv
  rcases bits with _ | ⟨⟨c7, b7⟩, bits⟩
  · have he1 : ordraws = [] := by simpa using hord
    have he2 : invdraws = [] := by simpa using hinv
    subst he1 he2
    have hc1 : c1 = 1 := hcoord (c1, b1) (by simp)
    have hc2 : c2 = 1 := hcoord (c2, b2) (by simp)
    have hc3 : c3 = 1 := hcoord (c3, b3) (by simp)
    have hc4 : c4 = 1 := hcoord (c4, b4) (by simp)
    have hc5 : c5 = 1 := hcoord (c5, b5) (by simp)
    have hc6 : c6 = 1 := hcoord (c6, b6) (by simp)
    subst hc1
    subst hc2
    subst hc3
    subst hc4
    subst hc5
    subst hc6
    have hb1 : b1 ≤ 1 := hbit (1, b1) (by simp)
    have hb2 : b2 ≤ 1 := hbit (1, b2) (by simp)
    have hb3 : b3 ≤ 1 := hbit (1, b3) (by simp)
    have hb4 : b4 ≤ 1 := hbit (1, b4) (by simp)
    have hb5 : b5 ≤ 1 := hbit (1, b5) (by simp)
    have hb6 : b6 ≤ 1 := hbit (1, b6) (by simp)
    have hr1 := hordv r1 (by simp)
    have hr2 := hordv r2 (by simp)
    have hr3 := hordv r3 (by simp)
    have hr4 := hordv r4 (by simp)
    have hr5 := hordv r5 (by simp)
    have hr6 := hordv r6 (by simp)
    have hq1 := hinvv q1 (by simp)
    have hq2 := hinvv q2 (by simp)
    have hq3 := hinvv q3 (by simp)
    have hq4 := hinvv q4 (by simp)
    have hq5 := hinvv q5 (by simp)
    have hq6 := hinvv q6 (by simp)
    have h := degOr_correct_6 b1 b2 b3 b4 b5 b6 r1 r2 r3 r4 r5 r6 q1 q2 q3 q4 q5 q6 hb1 hb2 hb3 hb4 hb5 hb6 hr1 hr2 hr3 hr4 hr5 hr6 hq1 hq2 hq3 hq4 hq5 hq6
    have hiff : (∀ s ∈ ([(1, b1), (1, b2), (1, b3), (1, b4), (1, b5), (1, b6)] : List (Nat × Nat)), s.2 = 0) ↔ (b1 = 0 ∧ b2 = 0 ∧ b3 = 0 ∧ b4 = 0 ∧ b5 = 0 ∧ b6 = 0) := by
      simp
    simp only [degRevealShares]
    rw [h]
    exact if_congr hiff.symm rfl rfl
  simp only [List.length_cons] at hlen
  omega

/-- C9 counterexample to the unrestricted claim: the all-ones pattern of
length 7 with valid draws (every draw is 4, a nonzero field element)
reveals 0 although not every input bit is 0 - the sum of bits plus one is
8 = 1 mod 7, which wraps onto the interpolation node where the OR
polynomial evaluates to 0. -/
theorem claim_C9_counterexample :
    degRevealShares (degUnboundedOr 7 (List.replicate 7 (1, 1))
        (List.replicate 7 4) (List.replicate 7 4)) = 0 ∧
      (∀ s ∈ List.replicate 7 ((1 : Nat), (1 : Nat)), s.2 ≠ 0) ∧
      (∀ d ∈ List.replicate 7 (4 : Nat), 0 < d ∧ d < 7) := by
  decide

/-- Witness: the claim's own test vector (1, 0, 1) with concrete valid
draws reveals 1. -/
theorem claim_C9_witness :
    degRevealShares (degUnboundedOr 7 [(1, 1), (1, 0), (1, 1)] [1, 2, 3] [4, 5, 6]) = 1 := by
  have h := claim_C9 [(1, 1), (1, 0), (1, 1)] [1, 2, 3] [4, 5, 6]
    (by decide) (by decide) (by decide) (by decide) rfl rfl (by decide) (by decide)
  simpa using h

end Jester
